import Mathlib

/-!
# A verification model of the `testnow` test runner

This file gives a shallow embedding, in Lean 4, of the two core subsystems of
the `testnow` package:

* the test-call registry and sequential execution engine of
  `ts/01_test-call.ts` (registration via specifiers, timeout racing,
  whole-run cancellation, statistics aggregation), and
* the lazy, stack-based directory-enumeration stream of `03-walk-folder.ts`
  together with the path-item model of `02_path-items.ts`.

Modelling conventions:

* JavaScript runtime values that flow through the engine (returned values,
  rejection reasons, expected values) are modelled by the inductive `JSValue`.
  A JS object is modelled by `JSObject`: its prototype chain as a list of
  constructor names (most derived first) and its own data summarised by a
  `message` string.  `util.isDeepStrictEqual` is modelled by structural
  equality of these values, and `instanceof C` by membership of `C` in the
  prototype chain.
* The behaviour of one registered function under execution (which the engine
  only observes through the race between its promise and the timeout timer)
  is abstracted by `CallBehavior`: the promise either fulfills before the
  timer, rejects before the timer, or is still pending when the timer fires.
  A synchronous `throw` is normalised by the source into a rejection
  (`errorFromReason`), so it is also a `rejects` behaviour.
* The asynchronous scheduling of `executeTestCalls` (`process.nextTick`
  between calls) is sequential and deterministic, so the drain of the pending
  list is modelled by a recursive function over the list.
* Pathnames are modelled as the list of segments obtained by splitting the
  absolute pathname on the separator `/` (the `sep` of `node:path` and the
  `NORMAL_SEPARATOR` coincide on POSIX).  A folder pathname ends with the
  separator, i.e. with an empty final segment.  The JS array used as the
  LIFO stack of pending pathnames pushes and pops at its end; the model uses
  the head of a Lean list as the top of the stack.
* The filesystem seen by the walker is a finite tree `FSNode`; `fs.stat` is
  modelled by resolving the path inside that tree, `fs.readdir` by reading
  the children list of a `dir` node (the readdir-error branch of `_read` is
  therefore unreachable in the model), and the `ENOENT` outcome of
  `doesFolderExistSync` by the walker being given `none` as its root tree.
-/

/-! ## JavaScript values -/

/-- A JS object as the engine observes it: its prototype chain of constructor
names (most derived first; for example `["TypeError", "Error"]`), and its own
enumerable data summarised by `message`.  `util.isDeepStrictEqual` on two such
objects is modelled by structural equality. -/
structure JSObject where
  classChain : List String
  message : String
deriving DecidableEq, Repr

/-- The JS values the engine can receive: `null`, `undefined`, primitives, or
an object. -/
inductive JSValue where
  | vNull : JSValue
  | vUndefined : JSValue
  | vBool (b : Bool) : JSValue
  | vNum (n : Int) : JSValue
  | vStr (s : String) : JSValue
  | vObj (o : JSObject) : JSValue
deriving DecidableEq, Repr

/-- Model of `util.isDeepStrictEqual`: structural equality of the modelled
values. -/
def isDeepStrictEqual (a b : JSValue) : Bool :=
  a == b

/-- Model of `value instanceof C` for a constructor named `C`: membership of
`C` in the prototype chain.  Primitives, `null` and `undefined` are not
instances of anything. -/
def instanceOfClass (value : JSValue) (className : String) : Bool :=
  match value with
  | .vObj o => o.classChain.contains className
  | _ => false

/-- Model of `String(value)`, used by `cancelTestCallExecution` when the
cancellation reason is not an `Error`. -/
def jsToString : JSValue → String
  | .vNull => "null"
  | .vUndefined => "undefined"
  | .vBool b => cond b "true" "false"
  | .vNum n => toString n
  | .vStr s => s
  | .vObj o => (o.classChain.headD "Object") ++ ": " ++ o.message

/-- Model of `pprint` from `00_utilities.ts` (`util.inspect` for errors,
`JSON.stringify` otherwise); the exact rendering only matters for `null` and
`undefined` in the claims below. -/
def jsPprint : JSValue → String
  | .vNull => "null"
  | .vUndefined => "undefined"
  | .vBool b => cond b "true" "false"
  | .vNum n => toString n
  | .vStr s => "\x22" ++ s ++ "\x22"
  | .vObj o => (o.classChain.headD "Object") ++ ": " ++ o.message

/-- Model of `getConstructor` from `01_test-call.ts`: the constructor of a
primitive is its wrapper class, the constructor of an object is the head of
its prototype chain, and `null`/`undefined` have none. -/
def getConstructor : JSValue → Option String
  | .vNull => none
  | .vUndefined => none
  | .vBool _ => some "Boolean"
  | .vNum _ => some "Number"
  | .vStr _ => some "String"
  | .vObj o => o.classChain.head?

/-! ## Test calls, expected results, execution records -/

/-- The expected outcome side of `TestCallResult`: either an error (a concrete
`Error` instance or an error constructor) or a normal value.  The source
encodes this as `{error, value}` with exactly one of them `null`; the model
uses a sum. -/
inductive ErrorOrConstructor where
  | errInstance (e : JSObject) : ErrorOrConstructor
  | ctor (className : String) : ErrorOrConstructor
deriving DecidableEq, Repr

/-- Model of `TestCallResult`: `makeNormalTestCallResult` and
`makeErrorTestCallResult`. -/
inductive TestCallResult where
  | normal (value : JSValue) : TestCallResult
  | error (e : ErrorOrConstructor) : TestCallResult
deriving DecidableEq, Repr

/-- How one registered function behaves when the engine runs it: its promise
fulfills before the timeout timer fires, rejects before the timer fires, or
does not settle before the timer fires (the timer wins `Promise.race`).  This
abstracts `fn` and `values` of the source `TestCall`. -/
inductive CallBehavior where
  | fulfills (value : JSValue) : CallBehavior
  | rejects (reason : JSValue) : CallBehavior
  | hangs : CallBehavior
deriving DecidableEq, Repr

/-- Model of `TestCall`: the behaviour of `fn(...values)` plus the optional
timeout override (`null` for calls registered through the plain
registration). -/
structure TestCall where
  behavior : CallBehavior
  timeoutDuration : Option Nat
deriving DecidableEq, Repr

/-- One entry of the engine's pending list: the test call together with the
expected result recorded by the specifier (`initializeTestCallExecution`
stores both in the execution record). -/
structure RegisteredCall where
  testCall : TestCall
  expected : TestCallResult
deriving DecidableEq, Repr

/-- The four states of `TestCallExecution`, with the payloads that vary per
state: `Done` carries `passed` and the obtained result, `Cancelled` carries
the error that aborted the run. -/
inductive ExecStatus where
  | initialized : ExecStatus
  | cancelled (error : JSObject) : ExecStatus
  | skipped : ExecStatus
  | done (passed : Bool) (obtained : TestCallResult) : ExecStatus
deriving DecidableEq, Repr

/-- A record is `Done` (in either passed state). -/
def isDoneRecord : ExecStatus → Bool
  | .done _ _ => true
  | _ => false

/-- A record counts toward `ok`: `Done` with `passed = true`
(`addTestExecution`). -/
def isOkRecord : ExecStatus → Bool
  | .done true _ => true
  | _ => false

/-- A record counts toward `skipped` (`addTestExecution`). -/
def isSkippedRecord : ExecStatus → Bool
  | .skipped => true
  | _ => false

/-- A record counts toward `ko`: anything that is neither `ok` nor `skipped`
(the final `else` of `addTestExecution`): every `Initialized`, `Cancelled`
and failed `Done` record. -/
def isKoRecord (r : ExecStatus) : Bool :=
  !isOkRecord r && !isSkippedRecord r

/-! ## The comparison and cancellation helpers of the engine -/

/-- The message of the error thrown by `asErrorOrConstructor` when the
rejection reason has no retrievable constructor. -/
def asErrorOrConstructorMsg (reason : JSValue) : String :=
  "[asErrorOrConstructor] Cannot retrieve the constructor of the obtained error "
    ++ jsPprint reason

/-- Model of `asErrorOrConstructor`: an `Error` instance is kept as is, any
other value is represented by its constructor, and a value with no
constructor (`null`, `undefined`) makes the helper throw. -/
def asErrorOrConstructor : JSValue → Except String ErrorOrConstructor
  | .vObj o =>
      if o.classChain.contains "Error" then .ok (.errInstance o)
      else
        match o.classChain.head? with
        | some c => .ok (.ctor c)
        | none => .error (asErrorOrConstructorMsg (.vObj o))
  | v =>
      match getConstructor v with
      | some c => .ok (.ctor c)
      | none => .error (asErrorOrConstructorMsg v)

/-- Model of `compareWithObtainedValue`: the record becomes `Done`, passing
exactly when a normal result was expected and the obtained value is deeply
equal to it.  Returns `(passed, obtained)`. -/
def compareWithObtainedValue (value : JSValue) (expected : TestCallResult) :
    Bool × TestCallResult :=
  (match expected with
   | .normal v => isDeepStrictEqual value v
   | .error _ => false,
   .normal value)

/-- The `passed` flag computed by `compareWithObtainedError` (the `if` chain
of lines 294-307): no error expected means failure; an expected `Error`
instance is compared by `isDeepStrictEqual` against a reason that is itself
an `Error`; an expected constructor is compared by `instanceof`. -/
def obtainedErrorPassed (reason : JSValue) (expected : TestCallResult) : Bool :=
  match expected with
  | .normal _ => false
  | .error (.errInstance e) =>
      match reason with
      | .vObj o => o.classChain.contains "Error" && e == o
      | _ => false
  | .error (.ctor c) => instanceOfClass reason c

/-- Model of `compareWithObtainedError`: compute the passed flag, then record
the obtained failure through `asErrorOrConstructor`, which throws (the
`.error` branch) when the reason has no retrievable constructor. -/
def compareWithObtainedError (reason : JSValue) (expected : TestCallResult) :
    Except String (Bool × TestCallResult) :=
  match asErrorOrConstructor reason with
  | .ok obtained => .ok (obtainedErrorPassed reason expected, .error obtained)
  | .error m => .error m

/-- Model of `cancelTestCallExecution`: the stored error is the reason itself
when it is an `Error`, otherwise `new Error(String(reason))`. -/
def cancelErrorOf (reason : JSValue) : JSObject :=
  match reason with
  | .vObj o => if o.classChain.contains "Error" then o else ⟨["Error"], jsToString (.vObj o)⟩
  | v => ⟨["Error"], jsToString v⟩

/-- The message of the timeout error created by the timing promise of
`executeTestCall`. -/
def timeoutMessage (timeoutDuration : Nat) : String :=
  "Execution timed out (duration: " ++ toString timeoutDuration ++ ")"

/-! ## The sequential execution engine -/

/-- What one `executeTestCall` does to the run: either finalize the record and
schedule the next call (`process.nextTick(executeNextTestCall)`), or finalize
it and stop the whole run (`cancelExecution`). -/
inductive StepOutcome where
  | next (record : ExecStatus) : StepOutcome
  | abort (record : ExecStatus) : StepOutcome
deriving DecidableEq, Repr

/-- Model of `executeTestCall` for one pending call.

* If the call's promise fulfills before the timer, `onFulfilled` runs
  `compareWithObtainedValue` (which cannot throw in the model) and the record
  becomes `Done`.
* If it rejects before the timer, `onRejected` runs
  `compareWithObtainedError`; if that throws, the record is cancelled with
  the thrown error and the run stops.
* If the timer fires first, `hasTimedOut` is set, the timing promise rejects
  with the timeout error, and `onRejected` cancels the record and the whole
  run. -/
def executeTestCall (defaultDelay : Nat) (rc : RegisteredCall) : StepOutcome :=
  let timeoutDuration := rc.testCall.timeoutDuration.getD defaultDelay
  match rc.testCall.behavior with
  | .fulfills value =>
      let r := compareWithObtainedValue value rc.expected
      .next (.done r.1 r.2)
  | .rejects reason =>
      match compareWithObtainedError reason rc.expected with
      | .ok r => .next (.done r.1 r.2)
      | .error m => .abort (.cancelled ⟨["Error"], m⟩)
  | .hangs =>
      .abort (.cancelled ⟨["Error"], timeoutMessage timeoutDuration⟩)

/-- One iteration of `executeNextTestCall`: a call with a timeout is skipped
when `skipTimeboxedTests` is set, otherwise it is executed. -/
def runOneCall (skipTimeboxedTests : Bool) (defaultDelay : Nat) (rc : RegisteredCall) :
    StepOutcome :=
  if rc.testCall.timeoutDuration.isNone || !skipTimeboxedTests then
    executeTestCall defaultDelay rc
  else
    .next .skipped

/-- Model of `executeTestCalls`: drain the pending list in order; an aborting
call leaves every later record in its original `Initialized` state (the
records were initialised at registration and are never touched again). -/
def executeTestCalls (skipTimeboxedTests : Bool) (defaultDelay : Nat) :
    List RegisteredCall → List ExecStatus
  | [] => []
  | rc :: rest =>
      match runOneCall skipTimeboxedTests defaultDelay rc with
      | .next record => record :: executeTestCalls skipTimeboxedTests defaultDelay rest
      | .abort record => record :: rest.map (fun _ => .initialized)

/-- `DEFAULT_TIMEOUT_DURATION` of the source (200 time units). -/
def DEFAULT_TIMEOUT_DURATION : Nat := 200

/-- Model of `call.run`: it resolves with the full list of execution records
(the `cancelExecution` continuation resolves with `testCallExecutions`
whether the drain finished or was aborted). -/
def run (skipTimeboxedTests : Bool) (pending : List RegisteredCall) : List ExecStatus :=
  executeTestCalls skipTimeboxedTests DEFAULT_TIMEOUT_DURATION pending

/-! ## Registration -/

/-- The specifier returned by a registration call; it closes over the test
call that `equals`/`throws` will append. -/
structure TestCallSpecifier where
  testCall : TestCall
deriving DecidableEq, Repr

/-- Model of `makeTestCallSpecifier` (and hence of both `call` and
`call.stopPast`, which differ only in `timeoutDuration`): it builds the
specifier and leaves the pending list untouched — only the `equals`/`throws`
closures push an execution record. -/
def makeTestCallSpecifier (timeoutDuration : Option Nat) (behavior : CallBehavior)
    (pending : List RegisteredCall) : List RegisteredCall × TestCallSpecifier :=
  (pending, ⟨⟨behavior, timeoutDuration⟩⟩)

/-- The `equals` closure of a specifier: append the call with a normal
expected result. -/
def TestCallSpecifier.equals (sp : TestCallSpecifier) (value : JSValue)
    (pending : List RegisteredCall) : List RegisteredCall :=
  pending ++ [⟨sp.testCall, .normal value⟩]

/-- The `throws` closure of a specifier: append the call with an error
expected result. -/
def TestCallSpecifier.throws (sp : TestCallSpecifier) (e : ErrorOrConstructor)
    (pending : List RegisteredCall) : List RegisteredCall :=
  pending ++ [⟨sp.testCall, .error e⟩]

/-! ## Statistics -/

/-- Model of `TestExecutionStatistics`. -/
structure TestExecutionStatistics where
  ok : Nat
  ko : Nat
  skipped : Nat
  total : Nat
deriving DecidableEq, Repr

/-- Model of `newTestExecutionStatistics`. -/
def newTestExecutionStatistics : TestExecutionStatistics :=
  ⟨0, 0, 0, 0⟩

/-- Model of `addTestExecution`: `Done ∧ passed` counts toward `ok`,
`Skipped` toward `skipped`, everything else toward `ko`; `total` always
increments. -/
def addTestExecution (record : ExecStatus) (s : TestExecutionStatistics) :
    TestExecutionStatistics :=
  if isOkRecord record then
    { s with ok := s.ok + 1, total := s.total + 1 }
  else if isSkippedRecord record then
    { s with skipped := s.skipped + 1, total := s.total + 1 }
  else
    { s with ko := s.ko + 1, total := s.total + 1 }

/-- Model of `makeTestExecutionStatistics`: fold `addTestExecution` over the
records. -/
def makeTestExecutionStatistics (records : List ExecStatus) : TestExecutionStatistics :=
  records.foldl (fun s r => addTestExecution r s) newTestExecutionStatistics

/-! ## Helper lemmas about the engine -/

/-- The drain produces exactly one record per pending call, aborted or not. -/
theorem executeTestCalls_length (skip : Bool) (d : Nat) (l : List RegisteredCall) :
    (executeTestCalls skip d l).length = l.length := by
  induction l with
  | nil => rfl
  | cons rc rest ih =>
      unfold executeTestCalls
      cases runOneCall skip d rc <;> simp [ih]

/-- An executed call (not skipped) that schedules the next call always leaves
a `Done` record: both finalization paths that continue the run go through a
comparison that sets the record to `Done`. -/
theorem executeTestCall_next_done (d : Nat) (rc : RegisteredCall) (r : ExecStatus)
    (h : executeTestCall d rc = .next r) : isDoneRecord r = true := by
  cases hb : rc.testCall.behavior with
  | fulfills value =>
      simp only [executeTestCall, hb] at h
      cases h
      rfl
  | rejects reason =>
      simp only [executeTestCall, hb] at h
      cases hc : compareWithObtainedError reason rc.expected with
      | ok p => simp only [hc] at h; cases h; rfl
      | error m => simp only [hc] at h; cases h
  | hangs => simp only [executeTestCall, hb] at h; cases h

/-- Unfolding of the accumulator of `makeTestExecutionStatistics`. -/
theorem foldl_addTestExecution (records : List ExecStatus) (s : TestExecutionStatistics) :
    records.foldl (fun s r => addTestExecution r s) s =
      ⟨s.ok + records.countP isOkRecord,
       s.ko + records.countP isKoRecord,
       s.skipped + records.countP isSkippedRecord,
       s.total + records.length⟩ := by
  induction records generalizing s with
  | nil => cases s; simp
  | cons r rest ih =>
      simp only [List.foldl_cons, ih, List.countP_cons, List.length_cons]
      cases r with
      | initialized =>
          simp [addTestExecution, isKoRecord, isOkRecord, isSkippedRecord]
          omega
      | cancelled e =>
          simp [addTestExecution, isKoRecord, isOkRecord, isSkippedRecord]
          omega
      | skipped =>
          simp [addTestExecution, isKoRecord, isOkRecord, isSkippedRecord]
          omega
      | done passed obtained =>
          cases passed <;>
            simp [addTestExecution, isKoRecord, isOkRecord, isSkippedRecord] <;>
            omega

/-! ## Claim C1 -/

/-- C1 (counterexample): the claim states that in every run with at least
three registered calls where the second call's timeout elapses before that
call settles, the first record is `Done`.  In a run with
`skipTimeboxedTests = true` whose first call carries an explicit timeout, the
first call is `Skipped` (not `Done`) while the second call (with no explicit
timeout) still runs, times out against the default 200-unit timer, and aborts
the rest of the run: the records are `Skipped`, `Cancelled`, `Initialized`,
so the first record is not `Done`. -/
theorem testnow_c1_counterexample :
    run true
      [⟨⟨.fulfills (.vNum 1), some 50⟩, .normal (.vNum 1)⟩,
       ⟨⟨.hangs, none⟩, .normal (.vNum 2)⟩,
       ⟨⟨.fulfills (.vNum 3), none⟩, .normal (.vNum 3)⟩] =
      [.skipped,
       .cancelled ⟨["Error"], timeoutMessage 200⟩,
       .initialized] ∧
    isDoneRecord .skipped = false := by
  decide

/-- C1 (amended): in every run where the first pending call is processed
without aborting the run (record `r₁`) and the second call is actually
executed (`skipTimeboxedTests` is off, or the call has no explicit timeout)
and its timeout elapses before it settles, `run()` resolves with `r₁` first
(which is `Done` whenever the first call was executed rather than skipped),
the second record `Cancelled` with the timeout error, and every later record
still `Initialized` — the timeout aborts the entire remaining run and no
subsequent pending call is ever executed or reclassified. -/
theorem testnow_c1_amended (skip : Bool) (c₁ c₂ : RegisteredCall)
    (rest : List RegisteredCall) (r₁ : ExecStatus)
    (h₁ : runOneCall skip DEFAULT_TIMEOUT_DURATION c₁ = .next r₁)
    (h₂ : c₂.testCall.behavior = .hangs)
    (h₂x : c₂.testCall.timeoutDuration = none ∨ skip = false) :
    run skip (c₁ :: c₂ :: rest) =
      r₁ ::
        .cancelled ⟨["Error"],
          timeoutMessage (c₂.testCall.timeoutDuration.getD DEFAULT_TIMEOUT_DURATION)⟩ ::
        rest.map (fun _ => .initialized) ∧
    ((skip = false ∨ c₁.testCall.timeoutDuration = none) → isDoneRecord r₁ = true) := by
  have habort : runOneCall skip DEFAULT_TIMEOUT_DURATION c₂ =
      .abort (.cancelled ⟨["Error"],
        timeoutMessage (c₂.testCall.timeoutDuration.getD DEFAULT_TIMEOUT_DURATION)⟩) := by
    rcases h₂x with hnone | hfalse
    · simp [runOneCall, executeTestCall, hnone, h₂]
    · simp [runOneCall, executeTestCall, hfalse, h₂]
  constructor
  · simp only [run, executeTestCalls, h₁, habort]
  · intro hx
    have hexec : runOneCall skip DEFAULT_TIMEOUT_DURATION c₁ =
        executeTestCall DEFAULT_TIMEOUT_DURATION c₁ := by
      rcases hx with hfalse | hnone
      · simp [runOneCall, hfalse]
      · simp [runOneCall, hnone]
    exact executeTestCall_next_done DEFAULT_TIMEOUT_DURATION c₁ r₁ (hexec ▸ h₁)

/-- C1 (witness for the amended claim): a concrete three-call run whose
second call times out at 10 units. -/
theorem testnow_c1_amended_witness :
    runOneCall false DEFAULT_TIMEOUT_DURATION ⟨⟨.fulfills (.vNum 1), none⟩, .normal (.vNum 1)⟩ =
      .next (.done true (.normal (.vNum 1))) ∧
    (⟨⟨.hangs, some 10⟩, .normal (.vNum 2)⟩ : RegisteredCall).testCall.behavior = .hangs ∧
    ((⟨⟨.hangs, some 10⟩, .normal (.vNum 2)⟩ : RegisteredCall).testCall.timeoutDuration = none ∨
      false = false) ∧
    (run false
        [⟨⟨.fulfills (.vNum 1), none⟩, .normal (.vNum 1)⟩,
         ⟨⟨.hangs, some 10⟩, .normal (.vNum 2)⟩,
         ⟨⟨.fulfills (.vNum 3), none⟩, .normal (.vNum 3)⟩] =
      .done true (.normal (.vNum 1)) ::
        .cancelled ⟨["Error"], timeoutMessage 10⟩ ::
        [.initialized] ∧
    ((false = false ∨
        (⟨⟨.fulfills (.vNum 1), none⟩, .normal (.vNum 1)⟩ : RegisteredCall).testCall.timeoutDuration
          = none) →
      isDoneRecord (.done true (.normal (.vNum 1))) = true)) :=
  ⟨by decide, by decide, Or.inr rfl,
    testnow_c1_amended false _ _ _ _ (by decide) (by decide) (Or.inr rfl)⟩

/-! ## Claim C6 -/

/-- C6 (counterexample): the claim states that every executed failing call
ends with a `Done` record.  A call that rejects with `null` (before its
timeout) cannot have its failure recorded — `asErrorOrConstructor` throws —
so the record ends `Cancelled`, not `Done`. -/
theorem testnow_c6_counterexample :
    run false [⟨⟨.rejects .vNull, none⟩, .normal (.vNum 1)⟩] =
      [.cancelled ⟨["Error"], asErrorOrConstructorMsg .vNull⟩] ∧
    isDoneRecord (.cancelled ⟨["Error"], asErrorOrConstructorMsg .vNull⟩) = false := by
  decide

/-- Modelled from the claim's words: the expected pass flag for a failing
call — deep structural equality against a concrete expected error, an
`instanceof`-style check against an expected error class, and failure when a
normal value was expected. -/
def specObtainedErrorPassed (expected : TestCallResult) (reason : JSValue) : Bool :=
  match expected with
  | .normal _ => false
  | .error (.errInstance e) =>
      match reason with
      | .vObj o => e == o
      | _ => false
  | .error (.ctor c) => instanceOfClass reason c

/-- A well-formed expectation: an expected concrete error instance really is
an `Error` (guaranteed by the `Function | Error` typing of `throws` in the
source). -/
def expectedWellFormed : TestCallResult → Bool
  | .error (.errInstance e) => e.classChain.contains "Error"
  | _ => true

/-- The engine's pass flag agrees with the claim's description whenever the
expected concrete error really is an `Error` instance. -/
theorem obtainedErrorPassed_eq_spec (reason : JSValue) (expected : TestCallResult)
    (hwf : expectedWellFormed expected = true) :
    obtainedErrorPassed reason expected = specObtainedErrorPassed expected reason := by
  cases expected with
  | normal v => rfl
  | error e =>
      cases e with
      | ctor c => rfl
      | errInstance e =>
          cases reason with
          | vObj o =>
              simp only [obtainedErrorPassed, specObtainedErrorPassed]
              by_cases heq : e = o
              · subst heq
                simp only [expectedWellFormed] at hwf
                rw [hwf]
                simp
              · simp [heq]
          | vNull => rfl
          | vUndefined => rfl
          | vBool b => rfl
          | vNum n => rfl
          | vStr s => rfl

/-- The engine's error comparison agrees with the claim's description
whenever the rejection reason has a retrievable constructor. -/
theorem compareWithObtainedError_ok (reason : JSValue) (expected : TestCallResult)
    (eoc : ErrorOrConstructor)
    (hwf : expectedWellFormed expected = true)
    (h : asErrorOrConstructor reason = .ok eoc) :
    compareWithObtainedError reason expected =
      .ok (specObtainedErrorPassed expected reason, .error eoc) := by
  simp only [compareWithObtainedError, h, obtainedErrorPassed_eq_spec reason expected hwf]

/-- C6 (amended): for every executed call that fails (throws or rejects)
with a reason whose constructor is retrievable (the reason is not `null` or
`undefined`), the record is `Done` and `passed` is exactly as the claim
describes: deep structural equality against a concrete expected `Error`
instance (same class but different message fails), an `instanceof` check
against an expected error class, and `false` when a normal value was
expected.  (When the constructor is not retrievable the record is instead
`Cancelled`, see C10.) -/
theorem testnow_c6_amended (reason : JSValue) (expected : TestCallResult)
    (eoc : ErrorOrConstructor)
    (hwf : expectedWellFormed expected = true)
    (h : asErrorOrConstructor reason = .ok eoc) :
    run false [⟨⟨.rejects reason, none⟩, expected⟩] =
      [.done (specObtainedErrorPassed expected reason) (.error eoc)] := by
  simp only [run, executeTestCalls, runOneCall, Option.isNone_none, Bool.not_false,
    Bool.true_or, if_true, executeTestCall,
    compareWithObtainedError_ok reason expected eoc hwf h]

/-- C6 (witness for the amended claim): a rejection with a `TypeError`
instance matched against the expected class `TypeError` passes. -/
theorem testnow_c6_amended_witness :
    expectedWellFormed (.error (.ctor "TypeError")) = true ∧
    asErrorOrConstructor (.vObj ⟨["TypeError", "Error"], "boom"⟩) =
      .ok (.errInstance ⟨["TypeError", "Error"], "boom"⟩) ∧
    run false
        [⟨⟨.rejects (.vObj ⟨["TypeError", "Error"], "boom"⟩), none⟩,
          .error (.ctor "TypeError")⟩] =
      [.done
        (specObtainedErrorPassed (.error (.ctor "TypeError"))
          (.vObj ⟨["TypeError", "Error"], "boom"⟩))
        (.error (.errInstance ⟨["TypeError", "Error"], "boom"⟩))] :=
  ⟨by decide, rfl, testnow_c6_amended _ _ _ (by decide) rfl⟩

/-! ## Claim C7 -/

/-- C7: for every list of execution records of a completed run, the computed
statistics satisfy `ok + ko + skipped = total = number of records`, where a
record counts toward `ok` iff it is `Done` with `passed = true`, toward
`skipped` iff it is `Skipped`, and toward `ko` otherwise (every
`Initialized`, `Cancelled` and failed `Done` record included). -/
theorem testnow_c7 (records : List ExecStatus) :
    (makeTestExecutionStatistics records).ok + (makeTestExecutionStatistics records).ko +
        (makeTestExecutionStatistics records).skipped =
      (makeTestExecutionStatistics records).total ∧
    (makeTestExecutionStatistics records).total = records.length ∧
    (makeTestExecutionStatistics records).ok = records.countP isOkRecord ∧
    (makeTestExecutionStatistics records).skipped = records.countP isSkippedRecord ∧
    (makeTestExecutionStatistics records).ko = records.countP isKoRecord := by
  have hsum : records.countP isOkRecord + records.countP isKoRecord +
      records.countP isSkippedRecord = records.length := by
    induction records with
    | nil => rfl
    | cons r rest ih =>
        simp only [List.countP_cons, List.length_cons]
        cases r with
        | initialized => simp [isKoRecord, isOkRecord, isSkippedRecord]; omega
        | cancelled e => simp [isKoRecord, isOkRecord, isSkippedRecord]; omega
        | skipped => simp [isKoRecord, isOkRecord, isSkippedRecord]; omega
        | done passed obtained =>
            cases passed <;> simp [isKoRecord, isOkRecord, isSkippedRecord] <;> omega
  have hfold := foldl_addTestExecution records newTestExecutionStatistics
  simp only [makeTestExecutionStatistics, newTestExecutionStatistics] at hfold ⊢
  rw [hfold]
  refine ⟨by simpa using hsum, by simp, by simp, by simp, by simp⟩

/-! ## Claim C9 -/

/-- C9: a registration made via `register(fn, args)` or
`registerWithTimeout` (modelled by `makeTestCallSpecifier` with and without a
timeout) on which neither `equals` nor `throws` is invoked leaves the pending
list unchanged, so `run()`'s result has exactly one entry per finalized
registration and zero entries for that one — silently, with no error
raised. -/
theorem testnow_c9 (pending : List RegisteredCall) (timeoutDuration : Option Nat)
    (behavior : CallBehavior) (skip : Bool) :
    (makeTestCallSpecifier timeoutDuration behavior pending).1 = pending ∧
    run skip (makeTestCallSpecifier timeoutDuration behavior pending).1 = run skip pending ∧
    (run skip pending).length = pending.length :=
  ⟨rfl, rfl, executeTestCalls_length skip DEFAULT_TIMEOUT_DURATION pending⟩

/-! ## Claim C10 -/

/-- C10: a call whose promise rejects with `null` or `undefined` before its
timeout cannot have its failure recorded: `asErrorOrConstructor` throws while
finalizing, the record ends `Cancelled` (not `Done`) with that error, and the
remainder of the run is aborted (all later records stay `Initialized`) even
though no timeout occurred. -/
theorem testnow_c10 (reason : JSValue) (expected : TestCallResult)
    (rest : List RegisteredCall)
    (h : reason = .vNull ∨ reason = .vUndefined) :
    run false (⟨⟨.rejects reason, none⟩, expected⟩ :: rest) =
      .cancelled ⟨["Error"], asErrorOrConstructorMsg reason⟩ ::
        rest.map (fun _ => .initialized) ∧
    isDoneRecord (.cancelled ⟨["Error"], asErrorOrConstructorMsg reason⟩) = false := by
  rcases h with h | h <;> subst h <;>
    simp [run, executeTestCalls, runOneCall, executeTestCall, compareWithObtainedError,
      asErrorOrConstructor, getConstructor, isDoneRecord]

/-- C10 (witness): a concrete run whose first call rejects with `null` and is
followed by one more pending call. -/
theorem testnow_c10_witness :
    (JSValue.vNull = JSValue.vNull ∨ JSValue.vNull = JSValue.vUndefined) ∧
    (run false
        [⟨⟨.rejects .vNull, none⟩, .normal (.vNum 0)⟩,
         ⟨⟨.fulfills (.vNum 9), none⟩, .normal (.vNum 9)⟩] =
      .cancelled ⟨["Error"], asErrorOrConstructorMsg .vNull⟩ :: [.initialized] ∧
    isDoneRecord (.cancelled ⟨["Error"], asErrorOrConstructorMsg .vNull⟩) = false) :=
  ⟨Or.inl rfl, testnow_c10 .vNull (.normal (.vNum 0)) _ (Or.inl rfl)⟩

/-! ## Pathnames, the filesystem model, path items -/

/-- A pathname, as the list of segments obtained by splitting the absolute
pathname on the separator.  A folder pathname ends with the separator, i.e.
with an empty final segment (`normalizeFolderPathname`). -/
abbrev Pathname := List String

/-- A finite filesystem tree: a plain file, or a directory with named
children (the model only needs the two kinds the walker distinguishes with
`fsStats.isFile()` / `fsStats.isDirectory()`). -/
inductive FSNode where
  | file : FSNode
  | dir (children : List (String × FSNode)) : FSNode

/-- `fsStats.isDirectory()`. -/
def FSNode.isDirectory : FSNode → Bool
  | .file => false
  | .dir _ => true

/-- Look a child up by name in a directory's children (first match, as the
filesystem resolves a name). -/
def findChild (s : String) : List (String × FSNode) → Option FSNode
  | [] => none
  | c :: rest => if c.1 = s then some c.2 else findChild s rest

/-- Resolve a relative segment path inside a tree: the model of `fs.stat`
relative to the walker's root tree. -/
def FSNode.resolve : FSNode → List String → Option FSNode
  | n, [] => some n
  | .file, _ :: _ => none
  | .dir cs, s :: rest =>
      match findChild s cs with
      | some c => c.resolve rest
      | none => none

mutual
/-- Well-formed directory contents, as real directories guarantee: child
names are nonempty and pairwise distinct, recursively. -/
def FSNode.wf : FSNode → Bool
  | .file => true
  | .dir cs =>
      cs.all (fun c => !(c.1 == "")) && (decide (cs.map Prod.fst).Nodup && wfChildren cs)
/-- The conjunction of `FSNode.wf` over a children list. -/
def wfChildren : List (String × FSNode) → Bool
  | [] => true
  | c :: rest => FSNode.wf c.2 && wfChildren rest
end

/-- Model of `parseFullFileName`: split a full file name at the last dot
(`lastIndexOf`); no dot means an empty extension. -/
def splitAtLastDot : List Char → Option (List Char × List Char)
  | [] => none
  | c :: rest =>
      match splitAtLastDot rest with
      | some r => some (c :: r.1, r.2)
      | none => if c = '.' then some ([], rest) else none

/-- Model of `parseFullFileName` on strings. -/
def parseFullFileName (fullFileName : String) : String × String :=
  match splitAtLastDot fullFileName.data with
  | none => (fullFileName, "")
  | some r => (String.mk r.1, String.mk r.2)

/-- Model of `AbsoluteFile` from `02_path-items.ts`: the normalized folder
pathname (in segments) plus the file name split from its extension. -/
structure AbsoluteFile where
  folderPathname : Pathname
  fileName : String
  extension : String
deriving DecidableEq, Repr

/-- Model of `AbsoluteFolder`. -/
structure AbsoluteFolder where
  folderPathname : Pathname
deriving DecidableEq, Repr

/-- Model of `PathItem` restricted to the absolute items the walker emits. -/
inductive PathItem where
  | file : AbsoluteFile → PathItem
  | folder : AbsoluteFolder → PathItem
deriving DecidableEq, Repr

/-- Model of `asAbsoluteFile`: the folder part is everything through the last
separator, the rest is the full file name parsed at its last dot. -/
def asAbsoluteFile (p : Pathname) : AbsoluteFile :=
  ⟨p.dropLast ++ [""],
   (parseFullFileName ((p.getLast?).getD "")).1,
   (parseFullFileName ((p.getLast?).getD "")).2⟩

/-- Model of `asAbsoluteFolder` (the pathname is already normalized with a
trailing separator). -/
def asAbsoluteFolder (p : Pathname) : AbsoluteFolder :=
  ⟨p⟩

/-! ## Directory entries and the default comparator -/

/-- Model of the `fs.Dirent` view the comparator and filter see: a name and
its kind. -/
structure Dirent where
  name : String
  isDirectory : Bool
deriving DecidableEq, Repr

/-- The `Dirent` view of one child entry of a directory node. -/
def direntOf (c : String × FSNode) : Dirent :=
  ⟨c.1, c.2.isDirectory⟩

/-- Model of `compareStringsAscending` from `00_utilities.ts`.  JS string
comparison `a < b` (code-unit lexicographic) is modelled by the
lexicographic order on the character lists.  Note the source treats an empty
string as falsy, so an empty string sorts after every nonempty string. -/
def compareStringsAscending (a b : String) : Int :=
  if a ≠ "" ∧ b ≠ "" then
    if a.data < b.data then -1 else if a = b then 0 else 1
  else if a ≠ "" then -1
  else if b ≠ "" then 1
  else 0

/-- Model of `sortFilesFirstThenAlphabetically` from `03-walk-folder.ts`:
directories sort before files, and inside each kind names sort in descending
order (`-1 *` the ascending comparison) — both inverted on purpose, to
compensate for the LIFO reversal of the stack the entries are pushed onto. -/
def sortFilesFirstThenAlphabetically (a b : Dirent) : Int :=
  if a.isDirectory && b.isDirectory then -1 * compareStringsAscending a.name b.name
  else if a.isDirectory then -1
  else if b.isDirectory then 1
  else -1 * compareStringsAscending a.name b.name

/-- Insertion into a sorted list, the building block of the stable-sort model
of `Array.prototype.sort`. -/
def jsSortInsert (le : α → α → Bool) (a : α) : List α → List α
  | [] => [a]
  | b :: l => if le a b then a :: b :: l else b :: jsSortInsert le a l

/-- A stable sort: the model of `Array.prototype.sort` with comparator `cmp`,
instantiated with `le a b := cmp a b ≤ 0` (for the consistent comparators
used here, any correct stable sort produces this unique result). -/
def jsStableSort (le : α → α → Bool) : List α → List α
  | [] => []
  | a :: l => jsSortInsert le a (jsStableSort le l)

/-! ## The folder walker -/

/-- Model of `FolderWalkerOptions`.  The index/array arguments of
`arrayFilterFunction` are unused by the walker's callers and are dropped;
`itemFilter` receives the pathname and the stat result (the resolved
node). -/
structure FolderWalkerOptions where
  arraySortFunction : Option (Dirent → Dirent → Int)
  arrayFilterFunction : Option (Dirent → Bool)
  depthLimit : Option Int
  itemFilter : Option (Pathname → FSNode → Bool)

/-- Model of `DEFAULT_FOLDER_WALKER_OPTIONS`. -/
def DEFAULT_FOLDER_WALKER_OPTIONS : FolderWalkerOptions :=
  ⟨some sortFilesFirstThenAlphabetically, none, none, none⟩

/-- The walker's construction-time data: the normalized absolute root
pathname, the root tree (`none` models the `ENOENT` outcome of the existence
probe), and the resolved options. -/
structure FolderWalker where
  rootPath : Pathname
  root : Option FSNode
  options : FolderWalkerOptions

/-- Model of `doesFolderExistSync`: `readdirSync` succeeds exactly when the
root exists; `ENOENT` yields `null`. -/
def doesFolderExistSync (root : Option FSNode) : Bool :=
  root.isSome

/-- The constructor's stack initialisation: the root pathname if the root
exists, otherwise an empty stack. -/
def initialStack (w : FolderWalker) : List Pathname :=
  if doesFolderExistSync w.root then [w.rootPath] else []

/-- The constructor's `absoluteLengthLimit`: root segment count plus
`depthLimit`, set only for a numeric `depthLimit > -1`. -/
def absoluteLengthLimit (w : FolderWalker) : Option Int :=
  match w.options.depthLimit with
  | some d => if d > -1 then some ((w.rootPath.length : Int) + d) else none
  | none => none

/-- The depth test of `_read`: `pathname.split(sep).length >
absoluteLengthLimit`. -/
def overLimit (w : FolderWalker) (p : Pathname) : Bool :=
  match absoluteLengthLimit w with
  | some lim => decide ((p.length : Int) > lim)
  | none => false

/-- Strip the trailing separator of a folder pathname before resolving it. -/
def stripTrailingSep (l : List String) : List String :=
  if l.getLast? = some "" then l.dropLast else l

/-- Model of `fsStat` on an absolute pathname: resolve the part after the
root prefix inside the root tree. -/
def statPath (w : FolderWalker) (p : Pathname) : Option FSNode :=
  w.root.bind (fun rt => rt.resolve (stripTrailingSep (p.drop (w.rootPath.length - 1))))

/-- Model of `join(pathname, fsDirent.name)` plus the trailing separator the
walker appends for directory entries. -/
def childAbs (p : Pathname) (c : String × FSNode) : Pathname :=
  match c.2 with
  | .file => p.dropLast ++ [c.1]
  | .dir _ => p.dropLast ++ [c.1, ""]

/-- Filter then sort a directory's children, as the readdir callback of
`_read` does. -/
def processChildren (w : FolderWalker) (cs : List (String × FSNode)) :
    List (String × FSNode) :=
  let filtered :=
    match w.options.arrayFilterFunction with
    | some f => cs.filter (fun c => f (direntOf c))
    | none => cs
  match w.options.arraySortFunction with
  | some cmp => jsStableSort (fun a b => decide (cmp (direntOf a) (direntOf b) ≤ 0)) filtered
  | none => filtered

/-- Push the processed children onto the stack in sorted order (`forEach`
pushes one by one, so the last pushed entry is popped first). -/
def pushChildren (p : Pathname) (sorted : List (String × FSNode))
    (stack : List Pathname) : List Pathname :=
  sorted.foldl (fun st c => childAbs p c :: st) stack

/-- The outcome of the pop loop of `folderWalker_NextItem`. -/
inductive NextItemOutcome where
  | endOfStack : NextItemOutcome
  | statError : NextItemOutcome
  | found (pathname : Pathname) (fsStats : FSNode) (rest : List Pathname) : NextItemOutcome

/-- Model of `folderWalker_NextItem`: pop until the stack is exhausted or an
entry survives the `itemFilter` — the loop continues (the entry is skipped)
exactly when the filter is configured and returns `true`. -/
def folderWalker_NextItem (w : FolderWalker) : List Pathname → NextItemOutcome
  | [] => .endOfStack
  | p :: rest =>
      match statPath w p with
      | none => .statError
      | some st =>
          match w.options.itemFilter with
          | none => .found p st rest
          | some f => if f p st then folderWalker_NextItem w rest else .found p st rest

/-- What one `_read` call does: push one item (with the resulting stack),
signal the end of the stream (`this.push(null)`), or destroy the stream. -/
inductive ReadEvent where
  | pushItem (item : PathItem) (stack : List Pathname) : ReadEvent
  | endOfStream : ReadEvent
  | streamError : ReadEvent

/-- Model of `FolderWalker._read`: take the next surviving entry; a file is
emitted as a file item; a directory over the depth limit is emitted without
expansion; otherwise its children are read, filtered, sorted and pushed, and
the directory item is emitted.  (`readdir` cannot fail on the model's tree,
so the error branch of the callback is unreachable; a failing `stat` rejects
the promise and destroys the stream.) -/
def stepRead (w : FolderWalker) (stack : List Pathname) : ReadEvent :=
  match folderWalker_NextItem w stack with
  | .endOfStack => .endOfStream
  | .statError => .streamError
  | .found p st rest =>
      match st with
      | .file => .pushItem (.file (asAbsoluteFile p)) rest
      | .dir cs =>
          if overLimit w p then .pushItem (.folder (asAbsoluteFolder p)) rest
          else .pushItem (.folder (asAbsoluteFolder p)) (pushChildren p (processChildren w cs) rest)

/-- How an enumeration run ended. -/
inductive WalkTermination where
  | finished : WalkTermination
  | errored : WalkTermination
  | outOfFuel : WalkTermination
deriving DecidableEq, Repr

/-- Drive `_read` repeatedly (the pull-based consumption loop), collecting
the emitted items; `fuel` bounds the number of pulls. -/
def walkAux (w : FolderWalker) : Nat → List Pathname → List PathItem × WalkTermination
  | 0, _ => ([], .outOfFuel)
  | fuel + 1, stack =>
      match stepRead w stack with
      | .pushItem item stack' =>
          let r := walkAux w fuel stack'
          (item :: r.1, r.2)
      | .endOfStream => ([], .finished)
      | .streamError => ([], .errored)

/-- A full enumeration from the constructor's initial stack. -/
def walkFolder (w : FolderWalker) (fuel : Nat) : List PathItem × WalkTermination :=
  walkAux w fuel (initialStack w)

/-! ## Properties of the stable sort -/

/-- Inserting permutes with consing. -/
theorem jsSortInsert_perm (le : α → α → Bool) (a : α) (l : List α) :
    List.Perm (jsSortInsert le a l) (a :: l) := by
  induction l with
  | nil => exact List.Perm.refl _
  | cons b t ih =>
      unfold jsSortInsert
      by_cases h : le a b = true
      · rw [if_pos h]
      · rw [if_neg h]
        exact (ih.cons b).trans (List.Perm.swap a b t)

/-- The stable sort permutes its input. -/
theorem jsStableSort_perm (le : α → α → Bool) (l : List α) :
    List.Perm (jsStableSort le l) l := by
  induction l with
  | nil => exact List.Perm.refl _
  | cons a t ih =>
      exact (jsSortInsert_perm le a (jsStableSort le t)).trans (ih.cons a)

/-- Insertion preserves sortedness for a transitive, total comparison. -/
theorem jsSortInsert_pairwise (le : α → α → Bool)
    (htrans : ∀ a b c, le a b = true → le b c = true → le a c = true)
    (htotal : ∀ a b, le a b = true ∨ le b a = true)
    (a : α) (l : List α) (h : l.Pairwise (fun x y => le x y = true)) :
    (jsSortInsert le a l).Pairwise (fun x y => le x y = true) := by
  induction l with
  | nil => simp [jsSortInsert]
  | cons b t ih =>
      cases h with
      | cons hb ht =>
          unfold jsSortInsert
          by_cases hab : le a b = true
          · rw [if_pos hab]
            refine List.Pairwise.cons ?_ (List.Pairwise.cons hb ht)
            intro x hx
            rcases List.mem_cons.mp hx with hx | hx
            · exact hx ▸ hab
            · exact htrans a b x hab (hb x hx)
          · rw [if_neg hab]
            refine List.Pairwise.cons ?_ (ih ht)
            intro x hx
            rcases List.mem_cons.mp ((jsSortInsert_perm le a t).mem_iff.mp hx) with hx | hx
            · rw [hx]
              rcases htotal a b with hax | hxa
              · exact absurd hax hab
              · exact hxa
            · exact hb x hx

/-- The stable sort sorts, for a transitive, total comparison. -/
theorem jsStableSort_pairwise (le : α → α → Bool)
    (htrans : ∀ a b c, le a b = true → le b c = true → le a c = true)
    (htotal : ∀ a b, le a b = true ∨ le b a = true)
    (l : List α) :
    (jsStableSort le l).Pairwise (fun x y => le x y = true) := by
  induction l with
  | nil => simp [jsStableSort]
  | cons a t ih => exact jsSortInsert_pairwise le htrans htotal a (jsStableSort le t) ih

/-- Two permuted lists that are both pairwise-ordered by an asymmetric
relation are equal. -/
theorem perm_pairwise_asymm_eq {S : α → α → Prop}
    (hasymm : ∀ a b, S a b → ¬ S b a) :
    ∀ (l₁ l₂ : List α), List.Perm l₁ l₂ → l₁.Pairwise S → l₂.Pairwise S → l₁ = l₂ := by
  intro l₁
  induction l₁ with
  | nil =>
      intro l₂ hp _ _
      exact (hp.symm.eq_nil).symm
  | cons a t ih =>
      intro l₂ hp h₁ h₂
      cases l₂ with
      | nil => exact absurd hp.eq_nil (List.cons_ne_nil a t)
      | cons b t₂ =>
          by_cases hab : a = b
          · subst hab
            exact congrArg (a :: ·) (ih t₂ hp.cons_inv h₁.of_cons h₂.of_cons)
          · exfalso
            have ha₂ : a ∈ t₂ := by
              rcases List.mem_cons.mp (hp.subset (List.mem_cons_self a t)) with h | h
              · exact absurd h hab
              · exact h
            have hb₁ : b ∈ t := by
              rcases List.mem_cons.mp (hp.symm.subset (List.mem_cons_self b t₂)) with h | h
              · exact absurd h.symm hab
              · exact h
            exact hasymm a b (List.rel_of_pairwise_cons h₁ hb₁)
              (List.rel_of_pairwise_cons h₂ ha₂)

/-! ## The order induced by the default comparator -/

/-- Two strings with equal character data are equal. -/
theorem string_data_inj {s t : String} (h : s.data = t.data) : s = t := by
  cases s
  cases t
  exact congrArg String.mk h

/-- The nonpositive side of `compareStringsAscending`: `a` sorts no later
than `b` exactly when `b` is empty, or `a` is nonempty and at most `b` in
the lexicographic order. -/
theorem compareStringsAscending_le_iff (a b : String) :
    compareStringsAscending a b ≤ 0 ↔ (b = "" ∨ (a ≠ "" ∧ a.data ≤ b.data)) := by
  unfold compareStringsAscending
  by_cases ha : a = ""
  · by_cases hb : b = "" <;> simp [ha, hb]
  · by_cases hb : b = ""
    · simp [ha, hb]
    · simp only [ha, hb, ne_eq, not_false_eq_true, and_self, if_true, false_or, true_and]
      by_cases hlt : a.data < b.data
      · simp [hlt, le_of_lt hlt]
      · by_cases heq : a = b
        · simp [hlt, heq, le_refl]
        · have hne : a.data ≠ b.data := fun hd => heq (string_data_inj hd)
          have : ¬ a.data ≤ b.data := fun hle => hlt (lt_of_le_of_ne hle hne)
          simp [hlt, heq, this]

/-- The nonnegative side of `compareStringsAscending`. -/
theorem compareStringsAscending_ge_iff (a b : String) :
    0 ≤ compareStringsAscending a b ↔ (a = "" ∨ (b ≠ "" ∧ b.data ≤ a.data)) := by
  unfold compareStringsAscending
  by_cases ha : a = ""
  · by_cases hb : b = "" <;> simp [ha, hb]
  · by_cases hb : b = ""
    · simp [ha, hb]
    · simp only [ha, hb, ne_eq, not_false_eq_true, and_self, if_true, false_or, true_and]
      by_cases hlt : a.data < b.data
      · have : ¬ b.data ≤ a.data := not_le.mpr hlt
        simp [hlt, this]
      · by_cases heq : a = b
        · subst heq
          simp [hlt, le_refl]
        · have hba : b.data ≤ a.data := le_of_not_lt hlt
          simp [hlt, heq, hba]

/-- The Boolean comparison the walker sorts with, for the default
comparator. -/
def defaultPairLe (a b : String × FSNode) : Bool :=
  decide (sortFilesFirstThenAlphabetically (direntOf a) (direntOf b) ≤ 0)

/-- The spec-side comparison: ascending lexicographic order on names. -/
def nameLe (a b : String × FSNode) : Bool :=
  decide (a.1.data ≤ b.1.data)

/-- The strict order in which the claim says siblings are visited: all plain
files before all subdirectories, inside each kind strictly ascending by
name. -/
def visitBefore (a b : String × FSNode) : Prop :=
  (a.2.isDirectory = false ∧ b.2.isDirectory = true) ∨
  (a.2.isDirectory = b.2.isDirectory ∧ a.1.data < b.1.data)

theorem visitBefore_asymm : ∀ a b, visitBefore a b → ¬ visitBefore b a := by
  intro a b hab hba
  rcases hab with ⟨ha, hb⟩ | ⟨hk, hlt⟩ <;> rcases hba with ⟨ha', hb'⟩ | ⟨hk', hlt'⟩
  · simp_all
  · simp_all
  · simp_all
  · exact absurd hlt' (lt_asymm hlt)

/-- Characterisation of the default comparator's nonpositive side on child
entries: directories sort before files, and inside one kind the order is the
inverted ascending name order (empty names sorting first here because
`compareStringsAscending` puts them last). -/
theorem defaultPairLe_iff (a b : String × FSNode) :
    defaultPairLe a b = true ↔
      (a.2.isDirectory = true ∧ b.2.isDirectory = false) ∨
      (a.2.isDirectory = b.2.isDirectory ∧
        (a.1 = "" ∨ (b.1 ≠ "" ∧ b.1.data ≤ a.1.data))) := by
  have hneg : ∀ x : Int, -1 * x ≤ 0 ↔ 0 ≤ x := by intro x; omega
  unfold defaultPairLe sortFilesFirstThenAlphabetically direntOf
  cases ha : a.2.isDirectory <;> cases hb : b.2.isDirectory <;>
    simp [ha, hb, hneg, compareStringsAscending_ge_iff]

/-- The default comparison is total. -/
theorem defaultPairLe_total (a b : String × FSNode) :
    defaultPairLe a b = true ∨ defaultPairLe b a = true := by
  rw [defaultPairLe_iff, defaultPairLe_iff]
  cases ha : a.2.isDirectory <;> cases hb : b.2.isDirectory <;> simp
  · by_cases h1 : a.1 = ""
    · tauto
    · by_cases h2 : b.1 = ""
      · tauto
      · rcases le_total a.1.data b.1.data with h | h <;> tauto
  · by_cases h1 : a.1 = ""
    · tauto
    · by_cases h2 : b.1 = ""
      · tauto
      · rcases le_total a.1.data b.1.data with h | h <;> tauto

/-- The default comparison is transitive. -/
theorem defaultPairLe_trans (a b c : String × FSNode)
    (hab : defaultPairLe a b = true) (hbc : defaultPairLe b c = true) :
    defaultPairLe a c = true := by
  rw [defaultPairLe_iff] at hab hbc ⊢
  rcases hab with ⟨ha, hb⟩ | ⟨hk, hr⟩
  · rcases hbc with ⟨hb', _⟩ | ⟨hk', hr'⟩
    · rw [hb'] at hb
      cases hb
    · rw [← hk'] at *
      exact Or.inl ⟨ha, hb⟩
  · rcases hbc with ⟨hb', hc⟩ | ⟨hk', hr'⟩
    · rw [hk] at *
      exact Or.inl ⟨hb', hc⟩
    · refine Or.inr ⟨hk.trans hk', ?_⟩
      rcases hr with h1 | ⟨hb1, hba⟩
      · exact Or.inl h1
      · rcases hr' with h2 | ⟨hc1, hcb⟩
        · exact absurd h2 hb1
        · exact Or.inr ⟨hc1, hcb.trans hba⟩

/-- The name comparison is transitive. -/
theorem nameLe_trans (a b c : String × FSNode)
    (hab : nameLe a b = true) (hbc : nameLe b c = true) : nameLe a c = true := by
  simp only [nameLe, decide_eq_true_eq] at *
  exact hab.trans hbc

/-- The name comparison is total. -/
theorem nameLe_total (a b : String × FSNode) :
    nameLe a b = true ∨ nameLe b a = true := by
  simp only [nameLe, decide_eq_true_eq]
  exact le_total _ _

/-- Membership is preserved by the stable sort. -/
theorem mem_jsStableSort {le : α → α → Bool} {x : α} {l : List α} :
    x ∈ jsStableSort le l ↔ x ∈ l :=
  (jsStableSort_perm le l).mem_iff

/-- A name-sorted list of entries of one single kind, with pairwise distinct
names, is pairwise ordered by `visitBefore`. -/
theorem sortedNamePart_pairwise (l : List (String × FSNode)) (k : Bool)
    (hk : ∀ x ∈ l, x.2.isDirectory = k)
    (hne : l.Pairwise (fun x y => x.1 ≠ y.1)) :
    (jsStableSort nameLe l).Pairwise visitBefore := by
  have hs := jsStableSort_pairwise nameLe nameLe_trans nameLe_total l
  have hsymm : ∀ {x y : String × FSNode}, x.1 ≠ y.1 → y.1 ≠ x.1 := fun h => Ne.symm h
  have hsne : (jsStableSort nameLe l).Pairwise (fun x y => x.1 ≠ y.1) :=
    ((jsStableSort_perm nameLe l).pairwise_iff hsymm).mpr hne
  refine (hs.and hsne).imp_of_mem ?_
  intro a b ha hb hab
  rcases hab with ⟨hle, hne'⟩
  right
  constructor
  · rw [hk a (mem_jsStableSort.mp ha), hk b (mem_jsStableSort.mp hb)]
  · have hdata : a.1.data ≤ b.1.data := by
      simpa [nameLe] using hle
    have hdne : a.1.data ≠ b.1.data := fun hd => hne' (string_data_inj hd)
    exact lt_of_le_of_ne hdata hdne

/-- The LIFO-compensation property of the default comparator
(`sortFilesFirstThenAlphabetically`): reversing the sorted children list —
which is exactly what popping the pushed entries off the stack does — yields
all plain files first, then all subdirectories, each group in strictly
ascending lexicographic name order. -/
theorem lifo_compensation (cs : List (String × FSNode))
    (hnames : ∀ c ∈ cs, c.1 ≠ "")
    (hnodup : (cs.map Prod.fst).Nodup) :
    (jsStableSort defaultPairLe cs).reverse =
      jsStableSort nameLe (cs.filter (fun c => !c.2.isDirectory)) ++
      jsStableSort nameLe (cs.filter (fun c => c.2.isDirectory)) := by
  have hnePairs : cs.Pairwise (fun x y => x.1 ≠ y.1) := List.pairwise_map.mp hnodup
  -- both sides are permutations of the children list
  have hpermL : List.Perm (jsStableSort defaultPairLe cs).reverse cs :=
    (List.reverse_perm _).trans (jsStableSort_perm _ cs)
  have hfc : cs.filter (fun a => !(!a.2.isDirectory)) = cs.filter (fun c => c.2.isDirectory) := by
    refine List.filter_congr ?_
    intro x hx
    simp
  have hfilters : List.Perm
      (cs.filter (fun c => !c.2.isDirectory) ++ cs.filter (fun c => c.2.isDirectory)) cs := by
    have := List.filter_append_perm (fun c : String × FSNode => !c.2.isDirectory) cs
    rwa [hfc] at this
  have hpermR : List.Perm
      (jsStableSort nameLe (cs.filter (fun c => !c.2.isDirectory)) ++
        jsStableSort nameLe (cs.filter (fun c => c.2.isDirectory))) cs :=
    ((jsStableSort_perm nameLe _).append (jsStableSort_perm nameLe _)).trans hfilters
  -- the left-hand side is pairwise ordered by the visitation order
  have hsorted := jsStableSort_pairwise defaultPairLe
    (fun a b c => defaultPairLe_trans a b c) defaultPairLe_total cs
  have hsymm : ∀ {x y : String × FSNode}, x.1 ≠ y.1 → y.1 ≠ x.1 := fun h => Ne.symm h
  have hsne : (jsStableSort defaultPairLe cs).Pairwise (fun x y => x.1 ≠ y.1) :=
    ((jsStableSort_perm defaultPairLe cs).pairwise_iff hsymm).mpr hnePairs
  have hL : (jsStableSort defaultPairLe cs).reverse.Pairwise visitBefore := by
    rw [List.pairwise_reverse]
    refine (hsorted.and hsne).imp_of_mem ?_
    intro a b ha hb hab
    rcases hab with ⟨hle, hne'⟩
    rcases (defaultPairLe_iff a b).mp hle with ⟨hadir, hbfile⟩ | ⟨hk, hr⟩
    · exact Or.inl ⟨hbfile, hadir⟩
    · rcases hr with hae | ⟨hbne, hba⟩
      · exact absurd hae (hnames a (mem_jsStableSort.mp ha))
      · refine Or.inr ⟨hk.symm, ?_⟩
        have hdne : b.1.data ≠ a.1.data := fun hd => hne' (string_data_inj hd).symm
        exact lt_of_le_of_ne hba hdne
  -- the right-hand side is pairwise ordered by the visitation order
  have hR : (jsStableSort nameLe (cs.filter (fun c => !c.2.isDirectory)) ++
      jsStableSort nameLe (cs.filter (fun c => c.2.isDirectory))).Pairwise visitBefore := by
    rw [List.pairwise_append]
    refine ⟨?_, ?_, ?_⟩
    · refine sortedNamePart_pairwise _ false ?_ (hnePairs.sublist (List.filter_sublist cs))
      intro x hx
      have := List.of_mem_filter hx
      simpa using this
    · refine sortedNamePart_pairwise _ true ?_ (hnePairs.sublist (List.filter_sublist cs))
      intro x hx
      have := List.of_mem_filter hx
      simpa using this
    · intro a ha b hb
      left
      constructor
      · have := List.of_mem_filter (mem_jsStableSort.mp ha)
        simpa using this
      · have := List.of_mem_filter (mem_jsStableSort.mp hb)
        simpa using this
  exact perm_pairwise_asymm_eq visitBefore_asymm _ _ (hpermL.trans hpermR.symm) hL hR

/-! ## Resolving paths in the filesystem model -/

/-- Every child of a well-formed children list is well-formed. -/
theorem wfChildren_mem {cs : List (String × FSNode)} {c : String × FSNode}
    (h : wfChildren cs = true) (hm : c ∈ cs) : FSNode.wf c.2 = true := by
  induction cs with
  | nil => cases hm
  | cons hd tl ih =>
      rw [wfChildren, Bool.and_eq_true] at h
      rcases List.mem_cons.mp hm with hm | hm
      · rw [hm]
        exact h.1
      · exact ih h.2 hm

/-- Unpack the well-formedness of a directory node. -/
theorem wf_dir_parts {cs : List (String × FSNode)} (h : FSNode.wf (.dir cs) = true) :
    (∀ c ∈ cs, c.1 ≠ "") ∧ (cs.map Prod.fst).Nodup ∧ wfChildren cs = true := by
  rw [FSNode.wf, Bool.and_eq_true, Bool.and_eq_true] at h
  rcases h with ⟨h1, h2, h3⟩
  refine ⟨?_, of_decide_eq_true h2, h3⟩
  intro c hc
  have := List.all_eq_true.mp h1 c hc
  simpa using this

/-- With pairwise distinct names, looking a member up by name finds exactly
its node. -/
theorem findChild_eq_of_mem {cs : List (String × FSNode)} {c : String × FSNode}
    (hnodup : (cs.map Prod.fst).Nodup) (hm : c ∈ cs) :
    findChild c.1 cs = some c.2 := by
  induction cs with
  | nil => cases hm
  | cons hd tl ih =>
      rcases List.nodup_cons.mp hnodup with ⟨hnotmem, htl⟩
      rcases List.mem_cons.mp hm with hm | hm
      · rw [hm]
        simp [findChild]
      · have hne : hd.1 ≠ c.1 := by
          intro he
          exact hnotmem (he ▸ List.mem_map_of_mem Prod.fst hm)
        rw [findChild, if_neg hne]
        exact ih htl hm

/-- Resolution splits over path concatenation. -/
theorem FSNode.resolve_append (n : FSNode) (xs ys : List String) :
    n.resolve (xs ++ ys) = (n.resolve xs).bind (fun m => m.resolve ys) := by
  induction xs generalizing n with
  | nil => simp [FSNode.resolve]
  | cons s xs ih =>
      cases n with
      | file => simp [FSNode.resolve]
      | dir cs =>
          rw [List.cons_append, FSNode.resolve, FSNode.resolve]
          cases findChild s cs with
          | some c => exact ih c
          | none => simp

/-- A list whose optional last element is the empty segment decomposes as its
front plus a trailing separator. -/
theorem eq_dropLast_concat_of_getLast? {l : List String} (h : l.getLast? = some "") :
    l = l.dropLast ++ [""] := by
  have hne : l ≠ [] := by
    intro h'
    rw [h'] at h
    cases h
  have h1 := List.dropLast_append_getLast hne
  have h2 : l.getLast hne = "" := by
    have h3 := List.getLast?_eq_getLast l hne
    rw [h3] at h
    exact Option.some_inj.mp h
  rw [h2] at h1
  exact h1.symm

/-- Unfold `statPath` through a known root. -/
theorem statPath_eq {w : FolderWalker} {rt : FSNode} (h : w.root = some rt) (p : Pathname) :
    statPath w p = rt.resolve (stripTrailingSep (p.drop (w.rootPath.length - 1))) := by
  simp [statPath, h]

/-- The root pathname resolves to the root tree. -/
theorem statPath_rootPath {w : FolderWalker} {rt : FSNode} (h : w.root = some rt)
    (hlast : w.rootPath.getLast? = some "") :
    statPath w w.rootPath = some rt := by
  rw [statPath_eq h]
  have hd := eq_dropLast_concat_of_getLast? hlast
  have hlen : (w.rootPath.dropLast ++ [""]).length - 1 = w.rootPath.dropLast.length := by
    simp
  rw [show w.rootPath.drop (w.rootPath.length - 1) =
        (w.rootPath.dropLast ++ [""]).drop ((w.rootPath.dropLast ++ [""]).length - 1) by
      rw [← hd]]
  rw [hlen, List.drop_left]
  simp [stripTrailingSep, FSNode.resolve]

/-- Resolving a child pathname built by the walker (`join` plus the trailing
separator for directories) finds exactly the child's node. -/
theorem statPath_childAbs {w : FolderWalker} {rt : FSNode} (h : w.root = some rt)
    {p : Pathname} {cs : List (String × FSNode)}
    (hstat : statPath w p = some (.dir cs))
    (hlast : p.getLast? = some "")
    (hlen : w.rootPath.length ≤ p.length)
    (hnodup : (cs.map Prod.fst).Nodup)
    {c : String × FSNode} (hc : c ∈ cs) (hname : c.1 ≠ "") :
    statPath w (childAbs p c) = some c.2 := by
  have hd := eq_dropLast_concat_of_getLast? hlast
  have hdl : w.rootPath.length - 1 ≤ p.dropLast.length := by
    rw [List.length_dropLast]
    omega
  have hr : p.drop (w.rootPath.length - 1) =
      p.dropLast.drop (w.rootPath.length - 1) ++ [""] := by
    conv_lhs => rw [hd]
    exact List.drop_append_of_le_length hdl
  have hstrip : stripTrailingSep (p.drop (w.rootPath.length - 1)) =
      p.dropLast.drop (w.rootPath.length - 1) := by
    rw [hr, stripTrailingSep, if_pos (List.getLast?_concat _), List.dropLast_concat]
  rw [statPath_eq h, hstrip] at hstat
  have hfind := findChild_eq_of_mem hnodup hc
  obtain ⟨name, node⟩ := c
  cases node with
  | file =>
      rw [statPath_eq h]
      show rt.resolve (stripTrailingSep ((p.dropLast ++ [name]).drop (w.rootPath.length - 1)))
        = some .file
      rw [List.drop_append_of_le_length hdl]
      have h2 : stripTrailingSep (p.dropLast.drop (w.rootPath.length - 1) ++ [name]) =
          p.dropLast.drop (w.rootPath.length - 1) ++ [name] := by
        rw [stripTrailingSep, if_neg]
        rw [List.getLast?_concat]
        intro hx
        exact hname (Option.some_inj.mp hx)
      rw [h2, FSNode.resolve_append, hstat]
      show FSNode.resolve (.dir cs) [name] = some .file
      rw [FSNode.resolve, hfind]
      rfl
  | dir cs₂ =>
      rw [statPath_eq h]
      show rt.resolve (stripTrailingSep ((p.dropLast ++ [name, ""]).drop (w.rootPath.length - 1)))
        = some (.dir cs₂)
      rw [List.drop_append_of_le_length hdl]
      have hsplit : p.dropLast.drop (w.rootPath.length - 1) ++ [name, ""] =
          (p.dropLast.drop (w.rootPath.length - 1) ++ [name]) ++ [""] := by
        simp
      rw [hsplit, stripTrailingSep, if_pos (List.getLast?_concat _), List.dropLast_concat,
        FSNode.resolve_append, hstat]
      show FSNode.resolve (.dir cs) [name] = some (.dir cs₂)
      rw [FSNode.resolve, hfind]
      rfl

/-- The stack after `forEach` pushing: the pushed pathnames in reverse order,
on top of the previous stack. -/
theorem pushChildren_eq (p : Pathname) (sorted : List (String × FSNode))
    (stack : List Pathname) :
    pushChildren p sorted stack = (sorted.map (childAbs p)).reverse ++ stack := by
  induction sorted generalizing stack with
  | nil => rfl
  | cons c t ih =>
      have h1 : pushChildren p (c :: t) stack = pushChildren p t (childAbs p c :: stack) := rfl
      rw [h1, ih (childAbs p c :: stack)]
      simp

/-- Processed children all come from the directory's children list. -/
theorem mem_processChildren {w : FolderWalker} {cs : List (String × FSNode)}
    {c : String × FSNode} (h : c ∈ processChildren w cs) : c ∈ cs := by
  unfold processChildren at h
  rcases hs : w.options.arraySortFunction with _ | cmp <;>
    rcases hf : w.options.arrayFilterFunction with _ | f <;>
      simp only [hs, hf] at h
  · exact h
  · exact List.mem_of_mem_filter h
  · exact mem_jsStableSort.mp h
  · exact List.mem_of_mem_filter (mem_jsStableSort.mp h)

/-! ## Stack invariants of the walker -/

/-- A stack entry the walker can be holding below the root: its pathname
resolves in the tree, the trailing-separator shape matches the resolved kind,
the resolved subtree is well-formed, and the entry lies at depth at least one
(strictly below the root). -/
def ValidEntry (w : FolderWalker) (e : Pathname) : Prop :=
  ∃ n, statPath w e = some n ∧ FSNode.wf n = true ∧
    (match n with
     | .file => e.getLast? ≠ some "" ∧ w.rootPath.length ≤ e.length
     | .dir _ => e.getLast? = some "" ∧ w.rootPath.length + 1 ≤ e.length)

/-- Is a stack entry one of the root's direct children, judged (as the
source's depth test does) by segment count? -/
def entryDepthIsOne (rootPath : Pathname) (e : Pathname) : Bool :=
  if e.getLast? = some "" then e.length == rootPath.length + 1
  else e.length == rootPath.length

/-- The item emitted for an entry that is popped without expansion. -/
def leafItemShape (e : Pathname) : PathItem :=
  if e.getLast? = some "" then .folder (asAbsoluteFolder e) else .file (asAbsoluteFile e)

/-- Is an emitted item one of the root's direct children, judged by the
segment count of its pathname? -/
def itemDepthIsOne (rootPath : Pathname) : PathItem → Bool
  | .file f => f.folderPathname.length == rootPath.length
  | .folder f => f.folderPathname.length == rootPath.length + 1

/-- The file item of an entry has the entry's depth. -/
theorem itemDepth_file (rootPath e : Pathname) (hne : e ≠ [])
    (hlast : e.getLast? ≠ some "") :
    itemDepthIsOne rootPath (.file (asAbsoluteFile e)) = entryDepthIsOne rootPath e := by
  have h1 : 1 ≤ e.length := List.length_pos.mpr hne
  simp only [itemDepthIsOne, asAbsoluteFile, entryDepthIsOne, if_neg hlast,
    List.length_append, List.length_dropLast, List.length_singleton]
  congr 1
  omega

/-- The folder item of an entry has the entry's depth. -/
theorem itemDepth_folder (rootPath e : Pathname) (hlast : e.getLast? = some "") :
    itemDepthIsOne rootPath (.folder (asAbsoluteFolder e)) = entryDepthIsOne rootPath e := by
  simp only [itemDepthIsOne, asAbsoluteFolder, entryDepthIsOne, if_pos hlast]

/-- Every child entry pushed while expanding a valid directory entry is
valid, and lies strictly deeper than depth one unless its parent was the
root itself. -/
theorem validEntry_child {w : FolderWalker} {rt : FSNode} (hroot : w.root = some rt)
    {e : Pathname} {cs : List (String × FSNode)}
    (hstat : statPath w e = some (.dir cs))
    (hwf : FSNode.wf (.dir cs) = true)
    (hlast : e.getLast? = some "")
    (hlen : w.rootPath.length ≤ e.length)
    {c : String × FSNode} (hc : c ∈ cs) :
    ValidEntry w (childAbs e c) ∧
      (w.rootPath.length + 1 ≤ e.length → entryDepthIsOne w.rootPath (childAbs e c) = false) := by
  obtain ⟨hnames, hnodup, hch⟩ := wf_dir_parts hwf
  have hname := hnames c hc
  have hne : e ≠ [] := by
    intro h'
    rw [h'] at hlast
    cases hlast
  have h1 : 1 ≤ e.length := List.length_pos.mpr hne
  have hstat' := statPath_childAbs hroot hstat hlast hlen hnodup hc hname
  have hwfc := wfChildren_mem hch hc
  obtain ⟨name, node⟩ := c
  cases node with
  | file =>
      have hshape : childAbs e (name, .file) = e.dropLast ++ [name] := rfl
      have hlast' : (childAbs e (name, .file)).getLast? = some name := by
        rw [hshape, List.getLast?_concat]
      have hlen' : (childAbs e (name, .file)).length = e.length := by
        rw [hshape]
        simp only [List.length_append, List.length_dropLast, List.length_singleton]
        omega
      constructor
      · refine ⟨.file, hstat', hwfc, ?_, ?_⟩
        · rw [hlast']
          intro hx
          exact hname (Option.some_inj.mp hx)
        · omega
      · intro hdeep
        rw [entryDepthIsOne, if_neg, hlen']
        · simp only [beq_eq_false_iff_ne, ne_eq]
          omega
        · rw [hlast']
          intro hx
          exact hname (Option.some_inj.mp hx)
  | dir cs₂ =>
      have hshape : childAbs e (name, .dir cs₂) = e.dropLast ++ [name, ""] := rfl
      have hsplit : e.dropLast ++ [name, ""] = (e.dropLast ++ [name]) ++ [""] := by simp
      have hlast' : (childAbs e (name, .dir cs₂)).getLast? = some "" := by
        rw [hshape, hsplit, List.getLast?_concat]
      have hlen' : (childAbs e (name, .dir cs₂)).length = e.length + 1 := by
        rw [hshape]
        simp only [List.length_append, List.length_dropLast]
        simp
        omega
      constructor
      · refine ⟨.dir cs₂, hstat', hwfc, hlast', ?_⟩
        omega
      · intro hdeep
        rw [entryDepthIsOne, if_pos hlast', hlen']
        simp only [beq_eq_false_iff_ne, ne_eq]
        omega

/-- A filter over elements that all fail the predicate is empty. -/
theorem filter_eq_nil_of_all {p : α → Bool} {l : List α}
    (h : ∀ a ∈ l, p a = false) : l.filter p = [] := by
  induction l with
  | nil => rfl
  | cons a t ih =>
      rw [List.filter_cons, h a (List.mem_cons_self a t)]
      exact ih (fun b hb => h b (List.mem_cons_of_mem a hb))

/-- The depth-one subsequence of a finishing walk from a stack of valid
below-root entries: exactly the depth-one stack entries, in stack order,
each as the item its pop emits.  Entries deeper than depth one only ever
push entries that are deeper still, so they contribute nothing to the
subsequence. -/
theorem walkAux_filter_depthOne (w : FolderWalker) {rt : FSNode}
    (hroot : w.root = some rt) (hfilt : w.options.itemFilter = none)
    (hrootne : w.rootPath ≠ []) :
    ∀ (fuel : Nat) (stack : List Pathname) (items : List PathItem),
      (∀ e ∈ stack, ValidEntry w e) →
      walkAux w fuel stack = (items, .finished) →
      items.filter (itemDepthIsOne w.rootPath) =
        (stack.filter (entryDepthIsOne w.rootPath)).map leafItemShape := by
  have hrootlen : 1 ≤ w.rootPath.length := List.length_pos.mpr hrootne
  intro fuel
  induction fuel with
  | zero =>
      intro stack items hv hrun
      simp [walkAux] at hrun
  | succ fuel ih =>
      intro stack items hv hrun
      cases stack with
      | nil =>
          have hstep : walkAux w (fuel + 1) ([] : List Pathname) = ([], .finished) := by
            simp [walkAux, stepRead, folderWalker_NextItem]
          rw [hstep] at hrun
          have h1 : ([] : List PathItem) = items := congrArg Prod.fst hrun
          rw [← h1]
          rfl
      | cons e rest =>
          obtain ⟨n, hstat, hwfn, hshape⟩ := hv e (List.mem_cons_self e rest)
          have hvrest : ∀ q ∈ rest, ValidEntry w q :=
            fun q hq => hv q (List.mem_cons_of_mem e hq)
          have hnext : folderWalker_NextItem w (e :: rest) = .found e n rest := by
            rw [folderWalker_NextItem, hstat, hfilt]
          cases n with
          | file =>
              obtain ⟨hlastne, hlen⟩ := hshape
              have hne : e ≠ [] := by
                intro h'
                rw [h'] at hlen
                simp only [List.length_nil, Nat.le_zero] at hlen
                omega
              have hstep : stepRead w (e :: rest) =
                  .pushItem (.file (asAbsoluteFile e)) rest := by
                simp only [stepRead, hnext]
              simp only [walkAux, hstep] at hrun
              have h1 : PathItem.file (asAbsoluteFile e) :: (walkAux w fuel rest).1 = items :=
                congrArg Prod.fst hrun
              have h2 : (walkAux w fuel rest).2 = .finished := congrArg Prod.snd hrun
              have ihr := ih rest (walkAux w fuel rest).1 hvrest (by rw [← h2])
              rw [← h1, List.filter_cons, List.filter_cons,
                itemDepth_file w.rootPath e hne hlastne]
              cases hd1 : entryDepthIsOne w.rootPath e
              · simp [ihr]
              · simp [ihr, leafItemShape, hlastne]
          | dir cs =>
              obtain ⟨hlaste, hlen⟩ := hshape
              by_cases hlim : overLimit w e = true
              · have hstep : stepRead w (e :: rest) =
                    .pushItem (.folder (asAbsoluteFolder e)) rest := by
                  simp only [stepRead, hnext, hlim, if_true]
                simp only [walkAux, hstep] at hrun
                have h1 : PathItem.folder (asAbsoluteFolder e) :: (walkAux w fuel rest).1 =
                    items := congrArg Prod.fst hrun
                have h2 : (walkAux w fuel rest).2 = .finished := congrArg Prod.snd hrun
                have ihr := ih rest (walkAux w fuel rest).1 hvrest (by rw [← h2])
                rw [← h1, List.filter_cons, List.filter_cons,
                  itemDepth_folder w.rootPath e hlaste]
                cases hd1 : entryDepthIsOne w.rootPath e
                · simp [ihr]
                · simp [ihr, leafItemShape, hlaste]
              · have hlim' : overLimit w e = false := by
                  exact Bool.not_eq_true _ ▸ hlim
                have hstep : stepRead w (e :: rest) =
                    .pushItem (.folder (asAbsoluteFolder e))
                      (pushChildren e (processChildren w cs) rest) := by
                  simp only [stepRead, hnext, hlim', Bool.false_eq_true, if_false]
                simp only [walkAux, hstep] at hrun
                have h1 : PathItem.folder (asAbsoluteFolder e) ::
                    (walkAux w fuel (pushChildren e (processChildren w cs) rest)).1 = items :=
                  congrArg Prod.fst hrun
                have h2 : (walkAux w fuel (pushChildren e (processChildren w cs) rest)).2 =
                    .finished := congrArg Prod.snd hrun
                have hchild : ∀ c ∈ processChildren w cs,
                    ValidEntry w (childAbs e c) ∧
                      entryDepthIsOne w.rootPath (childAbs e c) = false := by
                  intro c hc
                  have h := validEntry_child hroot hstat hwfn hlaste (by omega)
                    (mem_processChildren hc)
                  exact ⟨h.1, h.2 hlen⟩
                have hv' : ∀ q ∈ pushChildren e (processChildren w cs) rest, ValidEntry w q := by
                  intro q hq
                  rw [pushChildren_eq] at hq
                  rcases List.mem_append.mp hq with hq | hq
                  · rw [List.mem_reverse] at hq
                    obtain ⟨c, hc, rfl⟩ := List.mem_map.mp hq
                    exact (hchild c hc).1
                  · exact hvrest q hq
                have ihr := ih (pushChildren e (processChildren w cs) rest)
                  (walkAux w fuel (pushChildren e (processChildren w cs) rest)).1 hv'
                  (by rw [← h2])
                have hpushedFilter :
                    ((processChildren w cs).map (childAbs e)).reverse.filter
                      (entryDepthIsOne w.rootPath) = [] := by
                  refine filter_eq_nil_of_all ?_
                  intro q hq
                  rw [List.mem_reverse] at hq
                  obtain ⟨c, hc, rfl⟩ := List.mem_map.mp hq
                  exact (hchild c hc).2
                rw [pushChildren_eq, List.filter_append, hpushedFilter,
                  List.nil_append] at ihr
                rw [← h1, List.filter_cons, List.filter_cons,
                  itemDepth_folder w.rootPath e hlaste, pushChildren_eq]
                cases hd1 : entryDepthIsOne w.rootPath e
                · simp [ihr]
                · simp [ihr, leafItemShape, hlaste]

/-! ## Leaf pops and the root expansion step -/

/-- An entry that pops in a single `_read` without pushing anything: a file,
or a directory that is over the depth limit or has no processed children. -/
def IsLeafEntry (w : FolderWalker) (e : Pathname) : Prop :=
  statPath w e = some .file ∨
    ∃ cs, statPath w e = some (.dir cs) ∧
      (overLimit w e = true ∨ processChildren w cs = [])

/-- The item emitted when a leaf entry is popped. -/
def leafPopItem (w : FolderWalker) (e : Pathname) : PathItem :=
  match statPath w e with
  | some .file => .file (asAbsoluteFile e)
  | _ => .folder (asAbsoluteFolder e)

/-- Walking a run of leaf entries emits exactly one item per entry, in stack
order, and then continues with the rest of the stack. -/
theorem walkAux_leafEntries (w : FolderWalker) (hfilt : w.options.itemFilter = none) :
    ∀ (entries rest : List Pathname) (fuel : Nat),
      (∀ e ∈ entries, IsLeafEntry w e) →
      walkAux w (entries.length + fuel) (entries ++ rest) =
        (entries.map (leafPopItem w) ++ (walkAux w fuel rest).1, (walkAux w fuel rest).2) := by
  intro entries
  induction entries with
  | nil =>
      intro rest fuel h
      simp only [List.length_nil, Nat.zero_add, List.nil_append, List.map_nil]
  | cons e tl ih =>
      intro rest fuel h
      have htl : ∀ q ∈ tl, IsLeafEntry w q := fun q hq => h q (List.mem_cons_of_mem e hq)
      have hlen : (e :: tl).length + fuel = (tl.length + fuel) + 1 := by
        simp only [List.length_cons]
        omega
      rw [hlen, List.cons_append]
      rcases h e (List.mem_cons_self e tl) with hf | ⟨cs, hd, hor⟩
      · have hstep : stepRead w (e :: (tl ++ rest)) =
            .pushItem (.file (asAbsoluteFile e)) (tl ++ rest) := by
          simp only [stepRead, folderWalker_NextItem, hf, hfilt]
        simp only [walkAux, hstep, ih rest fuel htl, List.map_cons, List.cons_append,
          leafPopItem, hf]
      · have hstep : stepRead w (e :: (tl ++ rest)) =
            .pushItem (.folder (asAbsoluteFolder e)) (tl ++ rest) := by
          simp only [stepRead, folderWalker_NextItem, hd, hfilt]
          rcases hor with hov | hemp
          · simp [hov]
          · cases hlim : overLimit w e <;> simp [hlim, hemp, pushChildren]
        have hleaf : leafPopItem w e = .folder (asAbsoluteFolder e) := by
          simp only [leafPopItem, hd]
        simp only [walkAux, hstep, ih rest fuel htl, List.map_cons, List.cons_append, hleaf]

/-- Expanding the root: the first `_read` of a walker whose root exists, is a
directory, and is under the depth limit. -/
theorem stepRead_root {w : FolderWalker} {cs : List (String × FSNode)}
    (hroot : w.root = some (.dir cs))
    (hrootlast : w.rootPath.getLast? = some "")
    (hfilt : w.options.itemFilter = none)
    (hnotover : overLimit w w.rootPath = false) :
    stepRead w [w.rootPath] =
      .pushItem (.folder (asAbsoluteFolder w.rootPath))
        (pushChildren w.rootPath (processChildren w cs) []) := by
  have hstat := statPath_rootPath hroot hrootlast
  simp only [stepRead, folderWalker_NextItem, hstat, hfilt, hnotover, Bool.false_eq_true,
    if_false]

/-- With the default sort and no children filter, processing a children list
is exactly the stable sort by the default comparator. -/
theorem processChildren_default {w : FolderWalker}
    (hsort : w.options.arraySortFunction = some sortFilesFirstThenAlphabetically)
    (hfilterFn : w.options.arrayFilterFunction = none)
    (cs : List (String × FSNode)) :
    processChildren w cs = jsStableSort defaultPairLe cs := by
  unfold processChildren
  simp only [hsort, hfilterFn]
  rfl

/-- Every direct child pathname of the root sits at depth one. -/
theorem entryDepthOne_rootChild (rootPath : Pathname)
    (hroot : rootPath.getLast? = some "")
    {c : String × FSNode} (hname : c.1 ≠ "") :
    entryDepthIsOne rootPath (childAbs rootPath c) = true := by
  have hne : rootPath ≠ [] := by
    intro h'
    rw [h'] at hroot
    cases hroot
  have h1 : 1 ≤ rootPath.length := List.length_pos.mpr hne
  obtain ⟨name, node⟩ := c
  cases node with
  | file =>
      have hlast : (rootPath.dropLast ++ [name]).getLast? = some name :=
        List.getLast?_concat _
      have hcond : ¬ ((childAbs rootPath (name, FSNode.file)).getLast? = some "") := by
        show ¬ ((rootPath.dropLast ++ [name]).getLast? = some "")
        rw [hlast]
        intro hx
        exact hname (Option.some_inj.mp hx)
      rw [entryDepthIsOne, if_neg hcond]
      show ((rootPath.dropLast ++ [name]).length == rootPath.length) = true
      simp only [List.length_append, List.length_dropLast, List.length_singleton, beq_iff_eq]
      omega
  | dir cs₂ =>
      have hsplit : childAbs rootPath (name, FSNode.dir cs₂) =
          (rootPath.dropLast ++ [name]) ++ [""] := by
        show rootPath.dropLast ++ [name, ""] = _
        simp
      have hcond : (childAbs rootPath (name, FSNode.dir cs₂)).getLast? = some "" := by
        rw [hsplit]
        exact List.getLast?_concat _
      rw [entryDepthIsOne, if_pos hcond, hsplit]
      simp only [List.length_append, List.length_dropLast, List.length_singleton, beq_iff_eq]
      omega

/-- A node that is not a directory is a file. -/
theorem node_eq_file_of_not_dir {n : FSNode} (h : n.isDirectory = false) : n = .file := by
  cases n with
  | file => rfl
  | dir cs => simp [FSNode.isDirectory] at h

/-- A directory node's children. -/
theorem node_dir_exists {n : FSNode} (h : n.isDirectory = true) : ∃ cs, n = .dir cs := by
  cases n with
  | file => simp [FSNode.isDirectory] at h
  | dir cs => exact ⟨cs, rfl⟩

/-- The item a file child of the root pops as. -/
theorem leafItemShape_fileChild (rootPath : Pathname) {c : String × FSNode}
    (hfile : c.2 = .file) (hname : c.1 ≠ "") :
    leafItemShape (childAbs rootPath c) =
      .file (asAbsoluteFile (rootPath.dropLast ++ [c.1])) := by
  obtain ⟨name, node⟩ := c
  cases hfile
  have hlast : (rootPath.dropLast ++ [name]).getLast? = some name := List.getLast?_concat _
  show leafItemShape (rootPath.dropLast ++ [name]) = _
  rw [leafItemShape, if_neg]
  rw [hlast]
  intro hx
  exact hname (Option.some_inj.mp hx)

/-- The item a directory child of the root pops as. -/
theorem leafItemShape_dirChild (rootPath : Pathname) {c : String × FSNode}
    {cs₂ : List (String × FSNode)} (hdir : c.2 = .dir cs₂) :
    leafItemShape (childAbs rootPath c) =
      .folder (asAbsoluteFolder (rootPath.dropLast ++ [c.1, ""])) := by
  obtain ⟨name, node⟩ := c
  cases hdir
  show leafItemShape (rootPath.dropLast ++ [name, ""]) = _
  rw [leafItemShape, if_pos]
  rw [show rootPath.dropLast ++ [name, ""] = (rootPath.dropLast ++ [name]) ++ [""] by simp]
  exact List.getLast?_concat _

/-! ## Claim C2 -/

/-- C2: for every root folder — arbitrary children, real-directory names —
whose enumeration with the default comparator runs to completion, the
subsequence of emitted items that are the root's direct children (the
siblings, recognised by their segment count) is: all plain files first, then
all subdirectories, and within each group strictly ascending lexicographic
order by name.  The comparator sorts in the inverse order (directories
before files, names descending) precisely to compensate for the LIFO
reversal of the stack the children are pushed onto, see
`lifo_compensation`. -/
theorem testnow_c2 (rootPath : Pathname) (cs : List (String × FSNode))
    (fuel : Nat) (items : List PathItem)
    (hroot : rootPath.getLast? = some "")
    (hwf : FSNode.wf (.dir cs) = true)
    (hrun : walkFolder ⟨rootPath, some (.dir cs), DEFAULT_FOLDER_WALKER_OPTIONS⟩ fuel =
      (items, .finished)) :
    items.filter (itemDepthIsOne rootPath) =
      (jsStableSort nameLe (cs.filter (fun c => !c.2.isDirectory))).map
          (fun c => .file (asAbsoluteFile (rootPath.dropLast ++ [c.1]))) ++
        (jsStableSort nameLe (cs.filter (fun c => c.2.isDirectory))).map
          (fun c => .folder (asAbsoluteFolder (rootPath.dropLast ++ [c.1, ""]))) := by
  obtain ⟨hnames, hnodup, hch⟩ := wf_dir_parts hwf
  have hrootne : rootPath ≠ [] := by
    intro h'
    rw [h'] at hroot
    cases hroot
  cases fuel with
  | zero => simp [walkFolder, walkAux] at hrun
  | succ fuel =>
      set w : FolderWalker := ⟨rootPath, some (.dir cs), DEFAULT_FOLDER_WALKER_OPTIONS⟩
        with hwdef
      have hstep : stepRead w [rootPath] =
          .pushItem (.folder (asAbsoluteFolder rootPath))
            (pushChildren rootPath (processChildren w cs) []) :=
        stepRead_root (w := w) rfl hroot rfl rfl
      rw [show walkFolder w (fuel + 1) = walkAux w (fuel + 1) [rootPath] from rfl] at hrun
      simp only [walkAux, hstep] at hrun
      have h1 := congrArg Prod.fst hrun
      have h2 := congrArg Prod.snd hrun
      simp only at h1 h2
      have hstatroot : statPath w rootPath = some (.dir cs) := statPath_rootPath rfl hroot
      have hv' : ∀ q ∈ pushChildren rootPath (processChildren w cs) [], ValidEntry w q := by
        intro q hq
        rw [pushChildren_eq, List.append_nil, List.mem_reverse] at hq
        obtain ⟨c, hc, rfl⟩ := List.mem_map.mp hq
        exact (validEntry_child (w := w) (c := c) rfl hstatroot hwf hroot (le_refl _)
          (mem_processChildren hc)).1
      have hfilter := walkAux_filter_depthOne w rfl rfl hrootne fuel
        (pushChildren rootPath (processChildren w cs) [])
        (walkAux w fuel (pushChildren rootPath (processChildren w cs) [])).1 hv'
        (by rw [← h2])
      have hrootItem : itemDepthIsOne rootPath (.folder (asAbsoluteFolder rootPath)) = false := by
        simp only [itemDepthIsOne, asAbsoluteFolder, beq_eq_false_iff_ne, ne_eq]
        omega
      rw [← h1, List.filter_cons, hrootItem]
      simp only [Bool.false_eq_true, if_false]
      rw [hfilter]
      have hallone : ∀ q ∈ pushChildren rootPath (processChildren w cs) [],
          entryDepthIsOne rootPath q = true := by
        intro q hq
        rw [pushChildren_eq, List.append_nil, List.mem_reverse] at hq
        obtain ⟨c, hc, rfl⟩ := List.mem_map.mp hq
        exact entryDepthOne_rootChild rootPath hroot
          (hnames c (mem_processChildren hc))
      rw [List.filter_eq_self.mpr hallone]
      rw [pushChildren_eq, List.append_nil, ← List.map_reverse,
        processChildren_default (w := w) rfl rfl cs,
        lifo_compensation cs hnames hnodup, List.map_append, List.map_append,
        List.map_map, List.map_map]
      congr 1
      · refine List.map_congr_left ?_
        intro c hc
        have hcf := mem_jsStableSort.mp hc
        have hdir := List.of_mem_filter hcf
        have hmem := List.mem_of_mem_filter hcf
        have hfile : c.2 = .file := node_eq_file_of_not_dir (by simpa using hdir)
        exact leafItemShape_fileChild rootPath hfile (hnames c hmem)
      · refine List.map_congr_left ?_
        intro c hc
        have hcf := mem_jsStableSort.mp hc
        have hdir := List.of_mem_filter hcf
        obtain ⟨cs₂, hcs₂⟩ := node_dir_exists (by simpa using hdir)
        exact leafItemShape_dirChild rootPath hcs₂

/-- C2 (witness): a concrete mixed folder — two files, one nonempty and one
empty subdirectory — enumerated to completion. -/
theorem testnow_c2_witness :
    (["", "r", ""] : Pathname).getLast? = some "" ∧
    FSNode.wf (.dir [("b", .dir [("x.txt", .file)]), ("a.txt", .file),
      ("c", .dir []), ("d.txt", .file)]) = true ∧
    walkFolder ⟨["", "r", ""],
        some (.dir [("b", .dir [("x.txt", .file)]), ("a.txt", .file),
          ("c", .dir []), ("d.txt", .file)]),
        DEFAULT_FOLDER_WALKER_OPTIONS⟩ 20 =
      ([.folder ⟨["", "r", ""]⟩,
        .file ⟨["", "r", ""], "a", "txt"⟩,
        .file ⟨["", "r", ""], "d", "txt"⟩,
        .folder ⟨["", "r", "b", ""]⟩,
        .file ⟨["", "r", "b", ""], "x", "txt"⟩,
        .folder ⟨["", "r", "c", ""]⟩], .finished) ∧
    ([PathItem.folder ⟨["", "r", ""]⟩,
        .file ⟨["", "r", ""], "a", "txt"⟩,
        .file ⟨["", "r", ""], "d", "txt"⟩,
        .folder ⟨["", "r", "b", ""]⟩,
        .file ⟨["", "r", "b", ""], "x", "txt"⟩,
        .folder ⟨["", "r", "c", ""]⟩].filter (itemDepthIsOne ["", "r", ""]) =
      (jsStableSort nameLe
            ([("b", FSNode.dir [("x.txt", .file)]), ("a.txt", .file),
              ("c", .dir []), ("d.txt", .file)].filter (fun c => !c.2.isDirectory))).map
          (fun c => .file (asAbsoluteFile ((["", "r", ""] : Pathname).dropLast ++ [c.1]))) ++
        (jsStableSort nameLe
            ([("b", FSNode.dir [("x.txt", .file)]), ("a.txt", .file),
              ("c", .dir []), ("d.txt", .file)].filter (fun c => c.2.isDirectory))).map
          (fun c => .folder (asAbsoluteFolder ((["", "r", ""] : Pathname).dropLast ++ [c.1, ""])))) :=
  ⟨rfl, by decide, by decide,
    testnow_c2 ["", "r", ""]
      [("b", .dir [("x.txt", .file)]), ("a.txt", .file), ("c", .dir []), ("d.txt", .file)]
      20 _ rfl (by decide) (by decide)⟩

/-- The item a leaf entry that stats as a file pops as. -/
theorem leafPopItem_of_stat_file {w : FolderWalker} {e : Pathname}
    (h : statPath w e = some .file) : leafPopItem w e = .file (asAbsoluteFile e) := by
  simp only [leafPopItem, h]

/-- The item a leaf entry that stats as a directory pops as. -/
theorem leafPopItem_of_stat_dir {w : FolderWalker} {e : Pathname}
    {cs : List (String × FSNode)} (h : statPath w e = some (.dir cs)) :
    leafPopItem w e = .folder (asAbsoluteFolder e) := by
  simp only [leafPopItem, h]

/-- One pull that emits an item, unfolded. -/
theorem walkAux_push {w : FolderWalker} {fuel : Nat} {stack : List Pathname}
    {item : PathItem} {stack' : List Pathname}
    (h : stepRead w stack = .pushItem item stack') :
    walkAux w (fuel + 1) stack =
      (item :: (walkAux w fuel stack').1, (walkAux w fuel stack').2) := by
  simp only [walkAux, h]

/-- A full enumeration of a root folder all of whose (processed) children pop
as leaves: the root item first, then one item per child in the reversed
sorted order, and the stream finishes. -/
theorem walkFolder_rootLeaves (w : FolderWalker) (cs : List (String × FSNode))
    (hroot : w.root = some (.dir cs))
    (hrootlast : w.rootPath.getLast? = some "")
    (hfilt : w.options.itemFilter = none)
    (hnotover : overLimit w w.rootPath = false)
    (hleaf : ∀ q ∈ (processChildren w cs).map (childAbs w.rootPath), IsLeafEntry w q) :
    walkFolder w ((processChildren w cs).length + 2) =
      (.folder (asAbsoluteFolder w.rootPath) ::
        (((processChildren w cs).map (childAbs w.rootPath)).reverse.map (leafPopItem w)),
       .finished) := by
  have hinit : initialStack w = [w.rootPath] := by
    simp [initialStack, doesFolderExistSync, hroot]
  have hstep := stepRead_root hroot hrootlast hfilt hnotover
  have hfuel : (processChildren w cs).length + 2 = ((processChildren w cs).length + 1) + 1 := by
    omega
  have hrest := pushChildren_eq w.rootPath (processChildren w cs) []
  have hlen' : ((processChildren w cs).map (childAbs w.rootPath)).reverse.length =
      (processChildren w cs).length := by
    simp
  have hleaf' : ∀ q ∈ ((processChildren w cs).map (childAbs w.rootPath)).reverse,
      IsLeafEntry w q := by
    intro q hq
    exact hleaf q (List.mem_reverse.mp hq)
  have hwalk := walkAux_leafEntries w hfilt
    (((processChildren w cs).map (childAbs w.rootPath)).reverse) [] 1 hleaf'
  rw [hlen'] at hwalk
  rw [walkFolder, hinit, hfuel, walkAux_push hstep, hrest, hwalk]
  have h1 : walkAux w 1 ([] : List Pathname) = ([], .finished) := by
    simp [walkAux, stepRead, folderWalker_NextItem]
  rw [h1]
  simp

/-! ## Claim C3 -/

/-- C3 (counterexample): for a root folder containing exactly the file
`a.txt` and the empty subfolder `b/`, enumeration yields the root folder
item FIRST, then `a.txt`, then `b/` — not, as the claim's listed order says,
`a.txt`, then `b/`, then the root last.  (`_read` pushes the children onto
the stack and then emits the folder item, so a folder is always produced
before its children.) -/
theorem testnow_c3_counterexample :
    walkFolder ⟨["", "r", ""], some (.dir [("a.txt", .file), ("b", .dir [])]),
        DEFAULT_FOLDER_WALKER_OPTIONS⟩ 4 =
      ([.folder ⟨["", "r", ""]⟩,
        .file ⟨["", "r", ""], "a", "txt"⟩,
        .folder ⟨["", "r", "b", ""]⟩], .finished) ∧
    ¬ (walkFolder ⟨["", "r", ""], some (.dir [("a.txt", .file), ("b", .dir [])]),
        DEFAULT_FOLDER_WALKER_OPTIONS⟩ 4 =
      ([.file ⟨["", "r", ""], "a", "txt"⟩,
        .folder ⟨["", "r", "b", ""]⟩,
        .folder ⟨["", "r", ""]⟩], .finished)) := by
  decide

/-- C3 (amended): for every root folder containing exactly one file `a.txt`
and one empty subfolder `b/`, default-ordered enumeration yields exactly
three items in the order: the root folder itself first (always before any of
its children), then the file `a.txt`, then the folder `b/`. -/
theorem testnow_c3_amended (rootPath : Pathname) (hroot : rootPath.getLast? = some "") :
    walkFolder ⟨rootPath, some (.dir [("a.txt", .file), ("b", .dir [])]),
        DEFAULT_FOLDER_WALKER_OPTIONS⟩ 4 =
      ([.folder (asAbsoluteFolder rootPath),
        .file (asAbsoluteFile (rootPath.dropLast ++ ["a.txt"])),
        .folder (asAbsoluteFolder (rootPath.dropLast ++ ["b", ""]))], .finished) := by
  set w : FolderWalker := ⟨rootPath, some (.dir [("a.txt", FSNode.file), ("b", FSNode.dir [])]),
    DEFAULT_FOLDER_WALKER_OPTIONS⟩ with hwdef
  have hsort : processChildren w [("a.txt", FSNode.file), ("b", FSNode.dir [])] =
      [("b", FSNode.dir []), ("a.txt", FSNode.file)] := by
    rw [processChildren_default (w := w) rfl rfl]
    rfl
  have hstatroot : statPath w rootPath =
      some (.dir [("a.txt", FSNode.file), ("b", FSNode.dir [])]) :=
    statPath_rootPath rfl hroot
  have hstatA : statPath w (rootPath.dropLast ++ ["a.txt"]) = some .file :=
    statPath_childAbs (w := w) rfl hstatroot hroot (le_refl _) (by decide)
      (c := ("a.txt", FSNode.file)) (List.mem_cons_self _ _) (by decide)
  have hstatB : statPath w (rootPath.dropLast ++ ["b", ""]) = some (.dir []) :=
    statPath_childAbs (w := w) rfl hstatroot hroot (le_refl _) (by decide)
      (c := ("b", FSNode.dir []))
      (List.mem_cons_of_mem _ (List.mem_cons_self _ _)) (by decide)
  have hleaf : ∀ q ∈ (processChildren w [("a.txt", FSNode.file), ("b", FSNode.dir [])]).map
      (childAbs w.rootPath), IsLeafEntry w q := by
    rw [hsort]
    intro q hq
    rcases List.mem_cons.mp hq with hq | hq
    · refine hq ▸ Or.inr ⟨[], hstatB, Or.inr ?_⟩
      rw [processChildren_default (w := w) rfl rfl]
      rfl
    · rcases List.mem_cons.mp hq with hq | hq
      · exact hq ▸ Or.inl hstatA
      · cases hq
  have hmain := walkFolder_rootLeaves w [("a.txt", FSNode.file), ("b", FSNode.dir [])]
    rfl hroot rfl rfl hleaf
  rw [hsort] at hmain
  have hlen : ([("b", FSNode.dir []), ("a.txt", FSNode.file)] : List (String × FSNode)).length + 2
      = 4 := rfl
  rw [hlen] at hmain
  rw [hmain]
  have hmap : (([("b", FSNode.dir []), ("a.txt", FSNode.file)].map (childAbs w.rootPath)).reverse)
      = [rootPath.dropLast ++ ["a.txt"], rootPath.dropLast ++ ["b", ""]] := rfl
  rw [hmap, List.map_cons, List.map_cons, List.map_nil,
    leafPopItem_of_stat_file hstatA, leafPopItem_of_stat_dir hstatB]

/-- C3 (witness for the amended claim): the concrete root `/r/`. -/
theorem testnow_c3_amended_witness :
    (["", "r", ""] : Pathname).getLast? = some "" ∧
    walkFolder ⟨["", "r", ""], some (.dir [("a.txt", .file), ("b", .dir [])]),
        DEFAULT_FOLDER_WALKER_OPTIONS⟩ 4 =
      ([.folder (asAbsoluteFolder ["", "r", ""]),
        .file (asAbsoluteFile ((["", "r", ""] : Pathname).dropLast ++ ["a.txt"])),
        .folder (asAbsoluteFolder ((["", "r", ""] : Pathname).dropLast ++ ["b", ""]))],
       .finished) :=
  ⟨rfl, testnow_c3_amended ["", "r", ""] rfl⟩

/-! ## Claim C5 -/

/-- C5: first, a popped directory whose segment count exceeds
`absoluteLengthLimit` is still emitted as a folder item, but its children are
never read — nothing is pushed, the stack is exactly the remaining entries.
Second, with `depthLimit = 0` the root itself is still emitted and expanded,
while every direct child directory of the root — whatever its subtree — is
emitted as a leaf folder item only, its children never visited: the whole
enumeration is the root item followed by one leaf item per child. -/
theorem testnow_c5 :
    (∀ (w : FolderWalker) (p : Pathname) (cs : List (String × FSNode))
        (rest : List Pathname),
      w.options.itemFilter = none →
      statPath w p = some (.dir cs) →
      overLimit w p = true →
      stepRead w (p :: rest) = .pushItem (.folder (asAbsoluteFolder p)) rest) ∧
    (∀ (rootPath : Pathname) (cs : List (String × FSNode)),
      rootPath.getLast? = some "" →
      FSNode.wf (.dir cs) = true →
      walkFolder ⟨rootPath, some (.dir cs),
          { DEFAULT_FOLDER_WALKER_OPTIONS with depthLimit := some 0 }⟩ (cs.length + 2) =
        (.folder (asAbsoluteFolder rootPath) ::
          ((jsStableSort nameLe (cs.filter (fun c => !c.2.isDirectory))).map
              (fun c => .file (asAbsoluteFile (rootPath.dropLast ++ [c.1]))) ++
            (jsStableSort nameLe (cs.filter (fun c => c.2.isDirectory))).map
              (fun c => .folder (asAbsoluteFolder (rootPath.dropLast ++ [c.1, ""])))),
         .finished)) := by
  constructor
  · intro w p cs rest hfilt hstat hover
    simp only [stepRead, folderWalker_NextItem, hstat, hfilt, hover, if_true]
  · intro rootPath cs hroot hwf
    obtain ⟨hnames, hnodup, hch⟩ := wf_dir_parts hwf
    have hrootne : rootPath ≠ [] := by
      intro h'
      rw [h'] at hroot
      cases hroot
    have hrootlen : 1 ≤ rootPath.length := List.length_pos.mpr hrootne
    set w : FolderWalker := ⟨rootPath, some (.dir cs),
      { DEFAULT_FOLDER_WALKER_OPTIONS with depthLimit := some 0 }⟩ with hwdef
    have hlim : absoluteLengthLimit w = some ((rootPath.length : Int) + 0) := rfl
    have hnotover : overLimit w rootPath = false := by
      rw [overLimit, hlim]
      simp
    have hstatroot : statPath w rootPath = some (.dir cs) := statPath_rootPath rfl hroot
    have hplen : (processChildren w cs).length = cs.length := by
      rw [processChildren_default (w := w) rfl rfl]
      exact (jsStableSort_perm _ _).length_eq
    have hchildstat : ∀ c ∈ processChildren w cs, statPath w (childAbs rootPath c) = some c.2 :=
      fun c hc => statPath_childAbs (w := w) rfl hstatroot hroot (le_refl _) hnodup
        (mem_processChildren hc) (hnames c (mem_processChildren hc))
    have hleaf : ∀ q ∈ (processChildren w cs).map (childAbs w.rootPath), IsLeafEntry w q := by
      intro q hq
      obtain ⟨c, hc, rfl⟩ := List.mem_map.mp hq
      obtain ⟨name, node⟩ := c
      cases node with
      | file => exact Or.inl (hchildstat _ hc)
      | dir cs₂ =>
          refine Or.inr ⟨cs₂, hchildstat _ hc, Or.inl ?_⟩
          have hshape : childAbs rootPath (name, FSNode.dir cs₂) =
              rootPath.dropLast ++ [name, ""] := rfl
          rw [overLimit, hlim]
          show decide (((childAbs rootPath (name, FSNode.dir cs₂)).length : Int) >
            (rootPath.length : Int) + 0) = true
          rw [hshape]
          simp only [List.length_append, List.length_dropLast, decide_eq_true_eq]
          have : ([name, ""] : List String).length = 2 := rfl
          rw [this]
          omega
    have hmain := walkFolder_rootLeaves w cs rfl hroot rfl hnotover hleaf
    rw [hplen] at hmain
    rw [hmain]
    rw [← List.map_reverse, List.map_map, processChildren_default (w := w) rfl rfl,
      lifo_compensation cs hnames hnodup, List.map_append]
    have hA : (jsStableSort nameLe (cs.filter (fun c => !c.2.isDirectory))).map
        (leafPopItem w ∘ childAbs w.rootPath) =
        (jsStableSort nameLe (cs.filter (fun c => !c.2.isDirectory))).map
          (fun c => PathItem.file (asAbsoluteFile (rootPath.dropLast ++ [c.1]))) := by
      refine List.map_congr_left ?_
      intro c hc
      have hcf := mem_jsStableSort.mp hc
      have hdir := List.of_mem_filter hcf
      have hmem := List.mem_of_mem_filter hcf
      have hfile : c.2 = .file := node_eq_file_of_not_dir (by simpa using hdir)
      have hstat := statPath_childAbs (w := w) rfl hstatroot hroot (le_refl _) hnodup
        hmem (hnames c hmem)
      obtain ⟨name, node⟩ := c
      cases hfile
      show leafPopItem w (childAbs rootPath (name, FSNode.file)) = _
      rw [show childAbs rootPath (name, FSNode.file) = rootPath.dropLast ++ [name] from rfl]
      exact leafPopItem_of_stat_file hstat
    have hB : (jsStableSort nameLe (cs.filter (fun c => c.2.isDirectory))).map
        (leafPopItem w ∘ childAbs w.rootPath) =
        (jsStableSort nameLe (cs.filter (fun c => c.2.isDirectory))).map
          (fun c => PathItem.folder (asAbsoluteFolder (rootPath.dropLast ++ [c.1, ""]))) := by
      refine List.map_congr_left ?_
      intro c hc
      have hcf := mem_jsStableSort.mp hc
      have hdir := List.of_mem_filter hcf
      have hmem := List.mem_of_mem_filter hcf
      obtain ⟨cs₂, hcs₂⟩ := node_dir_exists (by simpa using hdir)
      have hstat := statPath_childAbs (w := w) rfl hstatroot hroot (le_refl _) hnodup
        hmem (hnames c hmem)
      obtain ⟨name, node⟩ := c
      cases hcs₂
      show leafPopItem w (childAbs rootPath (name, FSNode.dir cs₂)) = _
      rw [show childAbs rootPath (name, FSNode.dir cs₂) = rootPath.dropLast ++ [name, ""]
        from rfl]
      exact leafPopItem_of_stat_dir hstat
    rw [hA, hB]

/-! ## Claim C4 -/

/-- C4 (counterexample): an enumeration whose `itemFilter` returns `true` on
the root's lone file — under the claim's reading the predicate accepts the
file — yet the file is never emitted: the pop loop of
`folderWalker_NextItem` loops on (skips the entry) exactly while the filter
returns `true`, so the run yields the root folder item only. -/
theorem testnow_c4_counterexample :
    (fun (_ : Pathname) (st : FSNode) => !st.isDirectory)
        ((["", "r", ""] : Pathname).dropLast ++ ["a.txt"]) .file = true ∧
    walkFolder ⟨["", "r", ""], some (.dir [("a.txt", .file)]),
        { DEFAULT_FOLDER_WALKER_OPTIONS with
            itemFilter := some (fun _ st => !st.isDirectory) }⟩ 5 =
      ([.folder (asAbsoluteFolder ["", "r", ""])], .finished) :=
  ⟨rfl, rfl⟩

/-- C4 (amended): with `itemFilter = some f`, a popped file entry on which
`f` returns `true` is skipped without producing an item — the pop loop moves
on to the rest of the stack — and a popped file entry on which `f` returns
`false` is emitted as a file `PathItem`.  (The source's
`done = itemFilter === null || !itemFilter(pathname, fsStats)` keeps looping
exactly while the filter returns `true`: a `true` answer skips, the opposite
of the claim's accept/reject reading.) -/
theorem testnow_c4_amended (w : FolderWalker) (f : Pathname → FSNode → Bool)
    (e : Pathname) (st : FSNode) (rest : List Pathname)
    (hfilt : w.options.itemFilter = some f)
    (hstat : statPath w e = some st) :
    (f e st = true →
      folderWalker_NextItem w (e :: rest) = folderWalker_NextItem w rest) ∧
    (f e st = false → st = .file →
      stepRead w (e :: rest) = .pushItem (.file (asAbsoluteFile e)) rest) := by
  constructor
  · intro htrue
    simp only [folderWalker_NextItem, hstat, hfilt, htrue, if_true]
  · intro hfalse hfile
    subst hfile
    simp only [stepRead, folderWalker_NextItem, hstat, hfilt, hfalse,
      Bool.false_eq_true, if_false]

/-- A concrete walker exercising the corrected `itemFilter` polarity: the
filter returns `true` exactly on the entry named `a.txt`. -/
def c4walker : FolderWalker :=
  ⟨["", "r", ""], some (.dir [("a.txt", .file), ("b.txt", .file)]),
    { DEFAULT_FOLDER_WALKER_OPTIONS with
        itemFilter := some (fun p _ => decide (p.getLast? = some "a.txt")) }⟩

/-- C4 (witness for the amended claim): on `c4walker`, the entry `a.txt`
(filter `true`) is skipped and the entry `b.txt` (filter `false`) is emitted
as a file item. -/
theorem testnow_c4_amended_witness :
    folderWalker_NextItem c4walker [["", "r", "a.txt"], ["", "r", "b.txt"]] =
      folderWalker_NextItem c4walker [["", "r", "b.txt"]] ∧
    stepRead c4walker [["", "r", "b.txt"]] =
      .pushItem (.file (asAbsoluteFile ["", "r", "b.txt"])) [] :=
  ⟨(testnow_c4_amended c4walker _ ["", "r", "a.txt"] .file _ rfl rfl).1 rfl,
   (testnow_c4_amended c4walker _ ["", "r", "b.txt"] .file _ rfl rfl).2 rfl rfl⟩

/-! ## Claim C8 -/

/-- C8: when the root folder does not exist (`doesFolderExistSync` returns
`null` on the `ENOENT` of `readdirSync`), the constructor initialises an
empty stack and the enumeration yields zero items, terminating normally
(`finished`, not `errored`). -/
theorem testnow_c8 (w : FolderWalker) (fuel : Nat) (h : w.root = none) :
    initialStack w = [] ∧ walkFolder w (fuel + 1) = ([], .finished) := by
  have hstack : initialStack w = [] := by
    simp [initialStack, doesFolderExistSync, h]
  refine ⟨hstack, ?_⟩
  rw [walkFolder, hstack]
  simp [walkAux, stepRead, folderWalker_NextItem]

/-- C8 (witness): a concrete walker whose root is missing. -/
theorem testnow_c8_witness :
    initialStack ⟨["", "r", ""], none, DEFAULT_FOLDER_WALKER_OPTIONS⟩ = [] ∧
    walkFolder ⟨["", "r", ""], none, DEFAULT_FOLDER_WALKER_OPTIONS⟩ 3 = ([], .finished) :=
  ⟨(testnow_c8 ⟨["", "r", ""], none, DEFAULT_FOLDER_WALKER_OPTIONS⟩ 2 rfl).1,
   (testnow_c8 ⟨["", "r", ""], none, DEFAULT_FOLDER_WALKER_OPTIONS⟩ 2 rfl).2⟩
